import Mathlib

/-!
# httpc: request descriptors and the execution pipeline

A shallow embedding of the Go package `httpc` (`value.go`, `request.go`,
`client.go`) and the properties of its request descriptor and of `Client.Do`.

Conventions of the embedding

* Go `string` is `GoString`, Go `int`/`int64` is `GoInt` (no arithmetic is done on
  them, so no wrap-around is involved), `[]byte` contents are `Bytes`.
* Go reference types are explicit: a `url.Values` map and the backing array of a
  `[]Value` slice live in a `Heap`; the descriptor holds addresses into it, and
  every operation that allocates or writes takes and returns the heap.
* Functions of the Go standard library that the package calls are the fields of
  `Std`; the theorems hold for every `Std`.  `goStd` is one executable instance,
  used to evaluate the package on concrete inputs.
* Caller-supplied callbacks (encoder, error handler, custom parser, decode) are
  functions giving the callback's result; each invocation made by the package
  is recorded, in order, in a trace of `Event`s, as is the logging hook's call.
* Not embedded: `Must` (`New` after `url.Parse`, panicking on a parse error), the
  type `Error` of `error.go` (which `Do` does not use), contexts and durations.
-/

set_option autoImplicit false

/-- Go `string`. -/
abbrev GoString := String

/-- Go `int` and `int64`. -/
abbrev GoInt := Int

/-- Contents of a Go `[]byte`. -/
abbrev Bytes := List UInt8

/-- Go `error` values: one made by `errors.New` or by `fmt.Errorf` without `%w`
(`new`), or one made by `fmt.Errorf` with a single `%w` (`wrap`, holding the
rendered message and the wrapped cause). -/
inductive GoError where
  | new (msg : GoString)
  | wrap (msg : GoString) (cause : GoError)
deriving DecidableEq

namespace GoError

/-- The `Error()` message. -/
def Error : GoError → GoString
  | new msg => msg
  | wrap msg _ => msg

/-- The chain walked by `errors.Is` / `errors.Unwrap`: the error, then its cause,
and so on. -/
def chain : GoError → List GoError
  | new msg => [new msg]
  | wrap msg cause => wrap msg cause :: chain cause

end GoError

/-- `fmt.Errorf(pre + "%w" + suf, err)`: the message is the format rendered with
`err.Error()`, and `err` is the wrapped cause. -/
def Errorf_w (pre : GoString) (err : GoError) (suf : GoString) : GoError :=
  GoError.wrap (pre ++ err.Error ++ suf) err

/-- `strconv.Itoa`, `strconv.FormatInt(_, 10)` and the `%v`/`%d` rendering of an
integer: its decimal representation. -/
def Itoa (i : GoInt) : GoString := toString i

/-- The bytes of a Go string (its UTF-8 encoding). -/
def bytesOf (s : GoString) : Bytes := s.data.flatMap String.utf8EncodeChar

/-- An `io.Reader`: a `bytes.Buffer` created over known data, or any other
stream, known only by its identity. -/
inductive Reader where
  | buffer (data : Bytes)
  | stream (id : Nat)
deriving DecidableEq

/-- The bytes a reader yields when it is a buffer over known data. -/
def Reader.contents : Reader → Option Bytes
  | Reader.buffer data => some data
  | Reader.stream _ => none

/-- `bytes.NewBufferString`. -/
def NewBufferString (s : GoString) : Reader := Reader.buffer (bytesOf s)

/-- `bytes.NewBuffer`. -/
def NewBuffer (b : Bytes) : Reader := Reader.buffer b

/-- A Go `interface{}` value, as far as the package discriminates it: `nil`, a
`string`, a `[]byte`, an `io.Reader`, or a value of any other dynamic type (an
`int`, or some other value known by a tag). -/
inductive Any where
  | nil
  | str (s : GoString)
  | bytes (b : Bytes)
  | reader (rd : Reader)
  | int (i : GoInt)
  | other (tag : Nat)
deriving DecidableEq

namespace url

/-- The fields of `net/url.URL` that the package and the examples use. -/
structure URL where
  Scheme : GoString
  Host : GoString
  Path : GoString
  RawQuery : GoString
deriving DecidableEq

/-- The map `url.Values` (`map[string][]string`): its entries, each key once. -/
abbrev Values := List (GoString × List GoString)

/-- `url.Values.Add`: `v[key] = append(v[key], value)`. -/
def Values.Add : Values → GoString → GoString → Values
  | [], key, value => [(key, [value])]
  | (k, vs) :: rest, key, value =>
    if k = key then (k, vs ++ [value]) :: rest
    else (k, vs) :: Values.Add rest key value

/-- The order of Go strings (`<=`), on the characters of the two strings. -/
def leChars : List Char → List Char → Bool
  | [], _ => true
  | _ :: _, [] => false
  | a :: as, b :: bs =>
    if a.toNat < b.toNat then true
    else if b.toNat < a.toNat then false
    else leChars as bs

/-- The order used by `slices.Sort` on the keys. -/
def keyLe (a b : GoString) : Prop := leChars a.data b.data = true

instance : DecidableRel keyLe := fun a b => inferInstanceAs (Decidable (leChars a.data b.data = true))

/-- The values stored under a key (`v[k]`). -/
def Values.Get : Values → GoString → List GoString
  | [], _ => []
  | (k, vs) :: rest, key => if k = key then vs else Values.Get rest key

/-- The keys of the map, sorted (`slices.Sort(keys)`). -/
def Values.sortedKeys (v : Values) : List GoString :=
  (v.map Prod.fst).insertionSort keyLe

/-- Joining the pieces with `&`, as the builder loop of `Encode` does. -/
def joinAmp : List GoString → GoString
  | [] => ""
  | [a] => a
  | a :: b :: rest => a ++ "&" ++ joinAmp (b :: rest)

/-- `url.Values.Encode`: for every key in sorted order and every value of the key
in order, `QueryEscape(key) + "=" + QueryEscape(value)`, joined by `&`. -/
def Values.Encode (escape : GoString → GoString) (v : Values) : GoString :=
  joinAmp (v.sortedKeys.flatMap fun k =>
    (v.Get k).map fun x => escape k ++ "=" ++ escape x)

end url

namespace http

/-- A wire-level `http.Request`: method, URL, body, and the header as the
sequence of `Header.Add` calls it received. -/
structure Request where
  Method : GoString
  URL : url.URL
  Body : Option Reader
  Header : List (GoString × GoString)
deriving DecidableEq

/-- An `http.Response`: its status code and its body stream. -/
structure Response where
  StatusCode : GoInt
  Body : Reader
deriving DecidableEq

/-- An `http.RoundTripper`. -/
abbrev RoundTripper := Request → Except GoError Response

/-- The fields of `http.Client` that the package sets (`Timeout` in nanoseconds). -/
structure Client where
  Timeout : Nat
  Transport : Option RoundTripper

end http

/-- The standard-library functions the package calls. -/
structure Std where
  /-- `fmt.Sprintf`. -/
  Sprintf : GoString → List Any → GoString
  /-- `url.QueryEscape`. -/
  QueryEscape : GoString → GoString
  /-- `(*url.URL).Hostname`. -/
  Hostname : url.URL → GoString
  /-- `(*url.URL).Parse`, on the receiver `r.base` (possibly nil) and a reference. -/
  Parse : Option url.URL → GoString → Except GoError url.URL
  /-- `(*url.URL).String`. -/
  URLString : url.URL → GoString
  /-- `strings.ToLower`. -/
  ToLower : GoString → GoString
  /-- `http.NewRequestWithContext`, on method, URL text and body. -/
  NewRequestWithContext : GoString → GoString → Option Reader → Except GoError http.Request
  /-- `(*http.Client).Do`. -/
  Do : http.Client → http.Request → Except GoError http.Response
  /-- `io.ReadAll`: the bytes read and the read error, if any. -/
  ReadAll : Reader → Bytes × Option GoError
  /-- `http.DefaultTransport`. -/
  DefaultTransport : http.RoundTripper
  /-- `json.Unmarshal`, on the data and the target. -/
  JSONUnmarshal : Bytes → Any → Option GoError
  /-- `json.NewEncoder(&buf).Encode(v)`: the bytes written to the buffer and the
  error, if any. -/
  JSONEncode : Any → Bytes × Option GoError
  /-- The capacity the runtime picks when `append` must grow a slice of the given
  capacity to hold the given number of elements. -/
  growCap : Nat → Nat → Nat

namespace httpc

/-! ## value.go -/

/-- `type Value func(values)`: a deferred mutation of a target that exposes only
`Add(key, val)`.  It is represented by the sequence of `Add` calls it makes. -/
structure Value where
  adds : List (GoString × GoString)
deriving DecidableEq

/-- Applying a `Value` to a `url.Values` target. -/
def Value.applyValues (v : Value) (m : url.Values) : url.Values :=
  v.adds.foldl (fun acc kv => url.Values.Add acc kv.1 kv.2) m

/-- Applying a `Value` to an `http.Header` target. -/
def Value.applyHeader (v : Value) (hd : List (GoString × GoString)) : List (GoString × GoString) :=
  v.adds.foldl (fun acc kv => acc ++ [kv]) hd

/-! ## The heap: maps and slice backing arrays -/

/-- A Go slice `[]Value`: the address of its backing array (none for the nil
slice), its length and its capacity.  Slices of this package start at offset 0
of their array. -/
structure Slice where
  arr : Option Nat
  len : Nat
  cap : Nat
deriving DecidableEq

/-- The nil slice. -/
def Slice.nil : Slice := ⟨none, 0, 0⟩

/-- The heap: the `url.Values` maps and the `[]Value` backing arrays allocated so
far, by address. -/
structure Heap where
  maps : List url.Values
  arrays : List (List Value)

/-- The empty heap. -/
def Heap.empty : Heap := ⟨[], []⟩

/-- The map at an address. -/
def Heap.map (h : Heap) (ref : Nat) : url.Values := (h.maps[ref]?).getD []

/-- The elements of a slice: the first `len` cells of its backing array. -/
def Heap.view (h : Heap) (s : Slice) : List Value :=
  match s.arr with
  | none => []
  | some a => ((h.arrays[a]?).getD []).take s.len

/-- `v(m)` for the map `m` at address `ref`: the map is updated in place. -/
def Heap.applyValue (h : Heap) (ref : Nat) (v : Value) : Heap :=
  { h with maps := h.maps.set ref (v.applyValues (h.map ref)) }

/-- `append(s, vs...)`.  Nothing to append: `s` itself.  Enough capacity: the new
elements are written into the backing array after the first `len` cells and the
result shares the array.  Otherwise a new array is allocated, of the capacity
the runtime picks (at least what is needed), holding the old elements and the
new ones. -/
def Heap.append (std : Std) (h : Heap) (s : Slice) (vs : List Value) : Slice × Heap :=
  if vs = [] then (s, h)
  else
    match s.arr with
    | some a =>
      if s.len + vs.length ≤ s.cap then
        let old := (h.arrays[a]?).getD []
        (⟨some a, s.len + vs.length, s.cap⟩,
         { h with arrays := h.arrays.set a (old.take s.len ++ vs ++ old.drop (s.len + vs.length)) })
      else
        let newcap := max (s.len + vs.length) (std.growCap s.cap (s.len + vs.length))
        (⟨some h.arrays.length, s.len + vs.length, newcap⟩,
         { h with arrays := h.arrays ++
            [h.view s ++ vs ++ List.replicate (newcap - (s.len + vs.length)) ⟨[]⟩] })
    | none =>
      let newcap := max vs.length (std.growCap 0 vs.length)
      (⟨some h.arrays.length, vs.length, newcap⟩,
       { h with arrays := h.arrays ++ [vs ++ List.replicate (newcap - vs.length) ⟨[]⟩] })

/-! ## Events -/

/-- The calls the package makes to its collaborators, in the order made. -/
inductive Event where
  | encode (v : Any)
  | send (req : http.Request)
  | readAll (body : Reader)
  | closeBody (body : Reader)
  | customParse (resp : http.Response) (b : Bytes)
  | errorHandler (statusCode : GoInt) (b : Bytes)
  | decode (data : Bytes) (v : Any)
  | log (name method url : GoString) (statusCode : GoInt) (v : Any)
      (b : Option Bytes) (err : Option GoError)
deriving DecidableEq

/-- Whether an event is a call of the logging hook. -/
def Event.isLog : Event → Bool
  | Event.log _ _ _ _ _ _ _ => true
  | _ => false

/-- Whether an event is a call of the decode function. -/
def Event.isDecode : Event → Bool
  | Event.decode _ _ => true
  | _ => false

/-- Whether an event is a call of a descriptor's error handler. -/
def Event.isErrorHandler : Event → Bool
  | Event.errorHandler _ _ => true
  | _ => false

/-- Whether an event is a call of an encoder. -/
def Event.isEncode : Event → Bool
  | Event.encode _ => true
  | _ => false

/-! ## request.go -/

/-- `ErrBody`. -/
def ErrBody : GoError := GoError.new "must set []byte, io.Reader, or string for the body"

/-- `type Request struct`. -/
structure Request where
  base : Option url.URL
  path : GoString
  args : List Any
  method : GoString
  query : Option Nat
  headers : Slice
  body : Any
  encoder : Option (Any → Option Reader × Option GoError)
  errorHandler : Option (GoInt → Bytes → Option GoError)

namespace Request

/-- `NewRequest`. -/
def NewRequest (method : GoString) : Request :=
  { base := none, path := "", args := [], method := method, query := none,
    headers := Slice.nil, body := Any.nil, encoder := none, errorHandler := none }

/-- `WithPathf`. -/
def WithPathf (r : Request) (path : GoString) (args : List Any) : Request :=
  { r with path := path, args := args }

/-- `WithPath`. -/
def WithPath (r : Request) (path : GoString) : Request :=
  { r with path := path }

/-- `Method`. -/
def Method (r : Request) : GoString := r.method

/-- `WithBase`. -/
def WithBase (r : Request) (u : url.URL) : Request :=
  { r with base := some u }

/-- `Handler`. -/
def Handler (r : Request) : GoString := r.path

/-- The map held in `r.query` (empty for the nil map). -/
def queryMap (h : Heap) (r : Request) : url.Values :=
  match r.query with
  | none => []
  | some ref => h.map ref

/-- `URI`. -/
def URI (std : Std) (h : Heap) (r : Request) : GoString :=
  let u := if r.args.length > 0 then std.Sprintf r.path r.args else r.path
  if (r.queryMap h).length > 0 then
    u ++ "?" ++ url.Values.Encode std.QueryEscape (r.queryMap h)
  else u

/-- `WithQuery`: a nil map is replaced by a fresh one in the copy; then every
value is applied to the map `r.query` refers to. -/
def WithQuery (h : Heap) (r : Request) (value : List Value) : Request × Heap :=
  match r.query with
  | none =>
    ({ r with query := some h.maps.length },
     value.foldl (fun acc v => acc.applyValue h.maps.length v)
       { h with maps := h.maps ++ [[]] })
  | some ref => (r, value.foldl (fun acc v => acc.applyValue ref v) h)

/-- `WithHeader`. -/
def WithHeader (std : Std) (h : Heap) (r : Request) (value : List Value) : Request × Heap :=
  ({ r with headers := (h.append std r.headers value).1 }, (h.append std r.headers value).2)

/-- `WithBody`. -/
def WithBody (std : Std) (h : Heap) (r : Request) (b : Any)
    (encoder : Option (Any → Option Reader × Option GoError)) (headers : List Value) :
    Request × Heap :=
  ({ r with body := b, encoder := encoder, headers := (h.append std r.headers headers).1 },
   (h.append std r.headers headers).2)

/-- `RawBody`. -/
def RawBody (r : Request) : Any := r.body

/-- `Body`: the stream and the error returned, and the encoder calls made. -/
def Body (r : Request) : (Option Reader × Option GoError) × List Event :=
  match r.body with
  | Any.nil => ((none, none), [])
  | Any.str data => ((some (NewBufferString data), none), [])
  | Any.bytes data => ((some (NewBuffer data), none), [])
  | Any.reader data => ((some data, none), [])
  | Any.int i =>
    match r.encoder with
    | some enc => (enc (Any.int i), [Event.encode (Any.int i)])
    | none => ((none, some ErrBody), [])
  | Any.other t =>
    match r.encoder with
    | some enc => (enc (Any.other t), [Event.encode (Any.other t)])
    | none => ((none, some ErrBody), [])

/-- `ParseURL`. -/
def ParseURL (std : Std) (h : Heap) (r : Request) : Except GoError url.URL :=
  match std.Parse r.base (r.URI std h) with
  | Except.error err => Except.error (Errorf_w "" err ": invalid url")
  | Except.ok u => Except.ok u

/-- The loop `for _, v := range r.headers { v(req.Header) }`. -/
def applyHeaders (req : http.Request) (vs : List Value) : http.Request :=
  vs.foldl (fun acc v => { acc with Header := v.applyHeader acc.Header }) req

/-- `HTTP`: the request built or the error, and the encoder calls made. -/
def HTTP (std : Std) (h : Heap) (r : Request) : Except GoError http.Request × List Event :=
  match r.ParseURL std h with
  | Except.error err => (Except.error (Errorf_w "parse url error: " err ""), [])
  | Except.ok u =>
    match r.Body with
    | ((_, some err), tr) => (Except.error (Errorf_w "create body error: " err ""), tr)
    | ((b, none), tr) =>
      match std.NewRequestWithContext r.method (std.URLString u) b with
      | Except.error err => (Except.error (Errorf_w "create request error: " err ""), tr)
      | Except.ok req => (Except.ok (applyHeaders req (h.view r.headers)), tr)

/-- `WithErrorHandler`: a method on a value receiver that returns nothing.  The
assignment `r.errorHandler = h` is made to the callee's copy of the receiver,
which is dropped when the method returns. -/
def WithErrorHandler (r : Request) (h : GoInt → Bytes → Option GoError) : Unit :=
  let r : Request := { r with errorHandler := some h }
  let _ := r
  ()

/-- The statement `r.WithErrorHandler(h)` run by a caller that holds `r`: the
callee works on a copy, so the caller's descriptor afterwards is `r`. -/
def callWithErrorHandler (r : Request) (h : GoInt → Bytes → Option GoError) :
    Request × Unit :=
  (r, r.WithErrorHandler h)

end Request

/-- `GET`. -/
def GET (handler : GoString) (args : List Any) : Request :=
  (Request.NewRequest "GET").WithPathf handler args

/-- `POST`. -/
def POST (handler : GoString) (args : List Any) : Request :=
  (Request.NewRequest "POST").WithPathf handler args

/-- `PUT`. -/
def PUT (handler : GoString) (args : List Any) : Request :=
  (Request.NewRequest "PUT").WithPathf handler args

/-- `DELETE`. -/
def DELETE (handler : GoString) (args : List Any) : Request :=
  (Request.NewRequest "DELETE").WithPathf handler args

/-! ## client.go -/

/-- `defaultTimeout`, in nanoseconds. -/
def defaultTimeout : Nat := 15 * 1000000000

/-- `type Client struct`.  `logFunc` records whether a logging hook is configured;
its calls appear in the trace. -/
structure Client where
  client : http.Client
  url : url.URL
  name : GoString
  decode : Option (Bytes → Any → Option GoError)
  headers : Slice
  logFunc : Bool

/-- `type Option func(*Client)`. -/
abbrev ClientOption := Client → Client

/-- `WithTimeout`. -/
def WithTimeout (t : Nat) : ClientOption :=
  fun c => { c with client := { c.client with Timeout := t } }

/-- `WithTransport`. -/
def WithTransport (t : Option http.RoundTripper) : ClientOption :=
  fun c => { c with client := { c.client with Transport := t } }

/-- `WithLogFunc`, given whether the hook passed is non-nil. -/
def WithLogFunc (logFunc : Bool) : ClientOption :=
  fun c => { c with logFunc := logFunc }

/-- `WithDecode`. -/
def WithDecode (d : Option (Bytes → Any → Option GoError)) : ClientOption :=
  fun c => { c with decode := d }

/-- `WithHeaders`. -/
def WithHeaders (h : Slice) : ClientOption :=
  fun c => { c with headers := h }

/-- `WithName`. -/
def WithName (n : GoString) : ClientOption :=
  fun c => { c with name := n }

/-- `strings.Index(s, ".")`: the offset of the first period, or -1. -/
def indexPeriod (s : GoString) : GoInt :=
  if '.' ∈ s.data then (s.data.indexOf '.' : Nat) else -1

/-- The slice expression `s[:idx]`. -/
def sliceTo (s : GoString) (idx : GoInt) : GoString := ⟨s.data.take idx.toNat⟩

/-- `resolveName`. -/
def resolveName (std : Std) (u : url.URL) : GoString :=
  if indexPeriod (std.Hostname u) > 0 then
    std.ToLower (sliceTo (std.Hostname u) (indexPeriod (std.Hostname u)))
  else std.ToLower (std.Hostname u)

/-- `New`. -/
def New (std : Std) (u : url.URL) (opts : List ClientOption) : Client :=
  let c : Client :=
    { url := u, client := { Timeout := defaultTimeout, Transport := none },
      name := resolveName std u, decode := some std.JSONUnmarshal,
      headers := Slice.nil, logFunc := false }
  let c := opts.foldl (fun acc opt => opt acc) c
  if c.client.Transport.isNone then
    { c with client := { c.client with Transport := some std.DefaultTransport } }
  else c

/-- `Name`. -/
def Client.Name (c : Client) : GoString := c.name

/-- The descriptor `Do` builds the wire request from, and the heap after building
it: `r.WithBase(c.url).WithHeader(c.headers...)`. -/
def Client.bound (std : Std) (c : Client) (h : Heap) (r : Request) : Request × Heap :=
  (r.WithBase c.url).WithHeader std h (h.view c.headers)

/-- What one call of `Do` produces: the error returned, the calls made to the
collaborators in order, and the heap afterwards. -/
structure DoResult where
  err : Option GoError
  trace : List Event
  heap : Heap

/-- The deferred function of `Do`: when a hook is configured it is called, after
everything else, with the values the variables hold on return. -/
def Client.deferred (c : Client) (r : Request) (v : Any) (heap : Heap) (urlText : GoString)
    (rawResponseBytes : Option Bytes) (statusCode : GoInt) (err : Option GoError)
    (tr : List Event) : DoResult :=
  { err := err,
    trace :=
      if c.logFunc then
        tr ++ [Event.log c.Name r.Method urlText statusCode v rawResponseBytes err]
      else tr,
    heap := heap }

/-- `Do`. -/
def Client.Do (std : Std) (c : Client) (h : Heap) (r : Request) (v : Any)
    (customParseFunc : Option (http.Response → Bytes → Option GoError)) : DoResult :=
  let r := r.WithBase c.url
  let built := (r.WithHeader std h (h.view c.headers))
  match built.1.HTTP std built.2 with
  | (Except.error err, tr) =>
    c.deferred r v built.2 "" none 0
      (some (Errorf_w (c.Name ++ ": create http request error: ") err "")) tr
  | (Except.ok req, tr) =>
    match std.Do c.client req with
    | Except.error err =>
      c.deferred r v built.2 (std.URLString req.URL) none 0
        (some (Errorf_w (c.Name ++ ": do request error: ") err "")) (tr ++ [Event.send req])
    | Except.ok resp =>
      match std.ReadAll resp.Body with
      | (raw, some err) =>
        c.deferred r v built.2 (std.URLString req.URL) (some raw) 0
          (some (Errorf_w (c.Name ++ ": read body error: ") err ""))
          (tr ++ [Event.send req, Event.readAll resp.Body, Event.closeBody resp.Body])
      | (raw, none) =>
        match customParseFunc with
        | some parse =>
          c.deferred r v built.2 (std.URLString req.URL) (some raw) resp.StatusCode
            (parse resp raw)
            (tr ++ [Event.send req, Event.readAll resp.Body, Event.customParse resp raw,
              Event.closeBody resp.Body])
        | none =>
          if resp.StatusCode ≥ 400 then
            match r.errorHandler with
            | some handler =>
              c.deferred r v built.2 (std.URLString req.URL) (some raw) resp.StatusCode
                (handler resp.StatusCode raw)
                (tr ++ [Event.send req, Event.readAll resp.Body,
                  Event.errorHandler resp.StatusCode raw, Event.closeBody resp.Body])
            | none =>
              c.deferred r v built.2 (std.URLString req.URL) (some raw) resp.StatusCode
                (some (GoError.new (c.Name ++ ": http status code: " ++ Itoa resp.StatusCode)))
                (tr ++ [Event.send req, Event.readAll resp.Body, Event.closeBody resp.Body])
          else
            -- len(rawResponseBytes) > 1 && c.decode != nil && v != nil
            match c.decode with
            | some dec =>
              if raw.length > 1 ∧ v ≠ Any.nil then
                c.deferred r v built.2 (std.URLString req.URL) (some raw) resp.StatusCode
                  (dec raw v)
                  (tr ++ [Event.send req, Event.readAll resp.Body, Event.decode raw v,
                    Event.closeBody resp.Body])
              else
                c.deferred r v built.2 (std.URLString req.URL) (some raw) resp.StatusCode none
                  (tr ++ [Event.send req, Event.readAll resp.Body, Event.closeBody resp.Body])
            | none =>
              c.deferred r v built.2 (std.URLString req.URL) (some raw) resp.StatusCode none
                (tr ++ [Event.send req, Event.readAll resp.Body, Event.closeBody resp.Body])

/-! ## value.go: the builders -/

/-- `String`. -/
def String (key value : GoString) : Value := ⟨[(key, value)]⟩

/-- `Stringp`. -/
def Stringp (key : GoString) (value : Option GoString) : Value :=
  match value with
  | some x => ⟨[(key, x)]⟩
  | none => ⟨[]⟩

/-- `Int64`. -/
def Int64 (key : GoString) (value : GoInt) : Value := ⟨[(key, Itoa value)]⟩

/-- `Int`. -/
def Int (key : GoString) (value : GoInt) : Value := ⟨[(key, Itoa value)]⟩

/-- `Intp`. -/
def Intp (key : GoString) (value : Option GoInt) : Value :=
  match value with
  | some x => ⟨[(key, Itoa x)]⟩
  | none => ⟨[]⟩

/-- `Values`: the map is given by its entries in the order the `range` loop
visits them. -/
def Values (val : List (GoString × List GoString)) : Value :=
  ⟨val.flatMap fun kv => kv.2.map fun x => (kv.1, x)⟩

/-! ## request.go: the JSON body -/

/-- `jsonEncoder`: the buffer is returned together with the error of `Encode`. -/
def jsonEncoder (std : Std) : Any → Option Reader × Option GoError :=
  fun v => (some (Reader.buffer (std.JSONEncode v).1), (std.JSONEncode v).2)

/-- `jsonHeader`. -/
def jsonHeader : Value := String "Content-Type" "application/json"

/-- `WithJSONBody`. -/
def Request.WithJSONBody (std : Std) (h : Heap) (r : Request) (b : Any) : Request × Heap :=
  r.WithBody std h b (some (jsonEncoder std)) [jsonHeader]

end httpc

/-! ## An executable instance of the standard library

`goStd` follows the documented behaviour of the library functions on the inputs
the examples use: formats with the verbs `%d`, `%s`, `%v` and `%%`; references
made of a path and an optional query, resolved against a base with a scheme and
a host; absolute URL texts of the form `scheme://host/path?query`. -/

namespace goStd

/-- The rendering of one operand under a verb. -/
def fmtArg (verb : Char) (a : Any) : List Char :=
  match a with
  | Any.int i => if verb = 'd' ∨ verb = 'v' then (Itoa i).data else '%' :: '!' :: verb :: "(int)".data
  | Any.str s => if verb = 's' ∨ verb = 'v' then s.data else '%' :: '!' :: verb :: "(string)".data
  | _ => '%' :: '!' :: verb :: "(?)".data

/-- The scan of a format over its operands. -/
def sprintfChars : List Char → List Any → List Char
  | [], [] => []
  | [], _ :: _ => "%!(EXTRA)".data
  | [c], _ => [c]
  | c :: d :: rest, args =>
    if c = '%' then
      if d = '%' then '%' :: sprintfChars rest args
      else
        match args with
        | [] => '%' :: '!' :: d :: "(MISSING)".data ++ sprintfChars rest []
        | a :: more => fmtArg d a ++ sprintfChars rest more
    else c :: sprintfChars (d :: rest) args

/-- A model of `fmt.Sprintf`. -/
def Sprintf (format : GoString) (args : List Any) : GoString :=
  ⟨sprintfChars format.data args⟩

/-- An upper-case hexadecimal digit. -/
def hexDigit (n : Nat) : Char :=
  if n < 10 then Char.ofNat (48 + n) else Char.ofNat (55 + n)

/-- The escape `%XX` of one byte. -/
def escapeByte (b : UInt8) : List Char :=
  ['%', hexDigit (b.toNat / 16), hexDigit (b.toNat % 16)]

/-- The characters `QueryEscape` leaves alone. -/
def unreserved (c : Char) : Bool :=
  c.isAlphanum || c == '-' || c == '_' || c == '.' || c == '~'

/-- A model of `url.QueryEscape`. -/
def QueryEscape (s : GoString) : GoString :=
  ⟨s.data.flatMap fun c =>
    if unreserved c then [c]
    else if c = ' ' then ['+']
    else (String.utf8EncodeChar c).flatMap escapeByte⟩

/-- A model of `(*url.URL).Hostname`: the host without a trailing `:port` and
without the brackets of an IPv6 literal. -/
def Hostname (u : url.URL) : GoString :=
  let rev := u.Host.data.reverse
  let port := rev.takeWhile (fun c => c ≠ ':')
  let host :=
    if ':' ∈ rev ∧ port.all Char.isDigit then (rev.drop (port.length + 1)).reverse
    else u.Host.data
  if host.head? = some '[' ∧ host.getLast? = some ']' then ⟨(host.drop 1).dropLast⟩
  else ⟨host⟩

/-- The directory part of a path: everything up to and including the last `/`. -/
def dirOf (path : List Char) : List Char :=
  (path.reverse.dropWhile (fun c => c ≠ '/')).reverse

/-- A model of `(*url.URL).Parse` for a reference made of a path and an optional
query: a reference holding a control character is rejected, a rooted path
replaces the base path, another path is joined to the directory of the base
path, an empty path keeps the base path. -/
def Parse (base : Option url.URL) (ref : GoString) : Except GoError url.URL :=
  if ref.data.any (fun c => c.toNat < 32 ∨ c.toNat = 127) then
    Except.error (GoError.new ("parse \"" ++ ref ++ "\": net/url: invalid control character in URL"))
  else
    match base with
    | none => Except.error (GoError.new "parse: nil base")
    | some b =>
      let path := ref.data.takeWhile (fun c => c ≠ '?')
      let query := (ref.data.dropWhile (fun c => c ≠ '?')).drop 1
      let resolved :=
        if path.head? = some '/' then path
        else if path = [] then b.Path.data
        else if b.Path.data = [] then '/' :: path
        else dirOf b.Path.data ++ path
      Except.ok { b with Path := ⟨resolved⟩,
                         RawQuery := if path = [] ∧ query = [] then b.RawQuery else ⟨query⟩ }

/-- A model of `(*url.URL).String`. -/
def URLString (u : url.URL) : GoString :=
  u.Scheme ++ "://" ++ u.Host ++ u.Path ++ (if u.RawQuery = "" then "" else "?" ++ u.RawQuery)

/-- A model of `strings.ToLower` (letters `A`-`Z`). -/
def ToLower (s : GoString) : GoString := ⟨s.data.map Char.toLower⟩

/-- The text after the first `://`, when there is one. -/
def afterScheme : List Char → Option (List Char)
  | [] => none
  | c :: rest =>
    match c, rest with
    | ':', '/' :: '/' :: more => some more
    | _, _ => afterScheme rest

/-- The text before the first `://`. -/
def schemeOf : List Char → List Char
  | [] => []
  | c :: rest =>
    match c, rest with
    | ':', '/' :: '/' :: _ => []
    | _, _ => c :: schemeOf rest

/-- A model of `http.NewRequestWithContext`: the method must hold no blank, the
URL text must be `scheme://host` followed by an optional path and query. -/
def NewRequestWithContext (method urlText : GoString) (body : Option Reader) :
    Except GoError http.Request :=
  if method.data.any (fun c => c = ' ') then
    Except.error (GoError.new ("net/http: invalid method \"" ++ method ++ "\""))
  else
    match afterScheme urlText.data with
    | none => Except.error (GoError.new ("parse \"" ++ urlText ++ "\": missing scheme"))
    | some rest =>
      let host := rest.takeWhile (fun c => c ≠ '/' ∧ c ≠ '?')
      let tail := rest.dropWhile (fun c => c ≠ '/' ∧ c ≠ '?')
      Except.ok
        { Method := if method = "" then "GET" else method,
          URL := { Scheme := ⟨schemeOf urlText.data⟩, Host := ⟨host⟩,
                   Path := ⟨tail.takeWhile (fun c => c ≠ '?')⟩,
                   RawQuery := ⟨(tail.dropWhile (fun c => c ≠ '?')).drop 1⟩ },
          Body := body, Header := [] }

/-- A model of `http.DefaultTransport` on a machine without network. -/
def DefaultTransport : http.RoundTripper :=
  fun _ => Except.error (GoError.new "dial tcp: network is unreachable")

/-- A model of `(*http.Client).Do`: one round trip through the transport. -/
def Do (client : http.Client) (req : http.Request) : Except GoError http.Response :=
  match client.Transport with
  | some t => t req
  | none => DefaultTransport req

/-- A model of `io.ReadAll`: a buffer yields its data; any other stream fails. -/
def ReadAll : Reader → Bytes × Option GoError
  | Reader.buffer data => (data, none)
  | Reader.stream _ => ([], some (GoError.new "unexpected EOF"))

/-- A model of `json.Unmarshal`, reduced to its check of the first byte. -/
def JSONUnmarshal (data : Bytes) (_v : Any) : Option GoError :=
  if data.head? = some 123 ∨ data.head? = some 91 ∨ data.head? = some 34 then none
  else some (GoError.new "invalid character looking for beginning of value")

/-- A model of `Encode` of `encoding/json` on integers and on strings that need
no escaping; other values are rejected. -/
def JSONEncode : Any → Bytes × Option GoError
  | Any.int i => (bytesOf (Itoa i ++ "\n"), none)
  | Any.str s => (bytesOf ("\"" ++ s ++ "\"\n"), none)
  | _ => ([], some (GoError.new "json: unsupported type"))

end goStd

/-- The executable instance of `Std`. -/
def goStd : Std :=
  { Sprintf := goStd.Sprintf
    QueryEscape := goStd.QueryEscape
    Hostname := goStd.Hostname
    Parse := goStd.Parse
    URLString := goStd.URLString
    ToLower := goStd.ToLower
    NewRequestWithContext := goStd.NewRequestWithContext
    Do := goStd.Do
    ReadAll := goStd.ReadAll
    DefaultTransport := goStd.DefaultTransport
    JSONUnmarshal := goStd.JSONUnmarshal
    JSONEncode := goStd.JSONEncode
    growCap := fun cap _ => 2 * cap }

/-! ## Inputs of the examples and notions of the specification -/

namespace httpc

/-- The part of a string before its first period (the whole string when it has
none). -/
def beforePeriod (s : GoString) : GoString := ⟨s.data.takeWhile (fun c => c ≠ '.')⟩

/-- The base URL of the examples. -/
def apiBase : url.URL := ⟨"https", "api.example.com", "", ""⟩

/-- A transport that answers every request with the given status and body. -/
def respond (status : GoInt) (body : Reader) : http.RoundTripper :=
  fun _ => Except.ok ⟨status, body⟩

/-- A transport that fails. -/
def refuse : http.RoundTripper :=
  fun _ => Except.error (GoError.new "context canceled")

/-- The Client of the examples: base `https://api.example.com`, the given
transport, and a logging hook. -/
def apiClient (t : http.RoundTripper) : Client :=
  New goStd apiBase [WithTransport (some t), WithLogFunc true]

/-- The body of the 404 example. -/
def notFoundBody : Bytes := bytesOf "\x7b\"code\":404,\"message\":\"not found\"\x7d"

/-- The descriptor of the examples: `GET("/items/%d", 42)`. -/
def getItem : Request := GET "/items/%d" [Any.int 42]

/-- The wire request `Do` builds for `GET("/items/%d", 42)` at the Client of the
examples. -/
def itemRequest : http.Request :=
  { Method := "GET", URL := ⟨"https", "api.example.com", "/items/42", ""⟩,
    Body := none, Header := [] }

/-- An error handler that maps every failure status to success. -/
def lenient : GoInt → Bytes → Option GoError := fun _ _ => none

/-- The building of the wire request inside `Do`:
`r.WithHeader(c.headers...).HTTP(ctx)` on the descriptor bound to the base. -/
def Client.wire (std : Std) (c : Client) (h : Heap) (r : Request) :
    Except GoError http.Request × List Event :=
  (c.bound std h r).1.HTTP std (c.bound std h r).2

/-- The status code the specification of the logging hook is compared with: the
status code of the response when the wire request was built, the transport
returned a response and its body was read to the end; zero otherwise. -/
def loggedStatus (std : Std) (c : Client) (h : Heap) (r : Request) : GoInt :=
  match (c.wire std h r).1 with
  | Except.error _ => 0
  | Except.ok req =>
    match std.Do c.client req with
    | Except.error _ => 0
    | Except.ok resp =>
      match (std.ReadAll resp.Body).2 with
      | some _ => 0
      | none => resp.StatusCode

/-- A custom parser that reports the status code it was given. -/
def reportStatus : http.Response → Bytes → Option GoError :=
  fun resp _ => some (GoError.new ("status " ++ Itoa resp.StatusCode))

/-- A decode function that accepts every input. -/
def acceptAll : Bytes → Any → Option GoError := fun _ _ => none

/-- The bodies that reach the default case of the type switch in `Body`: values
that are neither nil, a string, a byte slice nor a reader. -/
def needsEncoder : Any → Bool
  | Any.int _ => true
  | Any.other _ => true
  | _ => false

/-- An encoder that yields a fixed stream. -/
def fixedEncoder : Any → Option Reader × Option GoError :=
  fun _ => (some (Reader.buffer (bytesOf "42")), none)

/-- Invariant of the heap: in every map, every key present has at least one value
(`Add` is the only operation that creates a key). -/
def Heap.WF (h : Heap) : Prop := ∀ m ∈ h.maps, ∀ kv ∈ m, kv.2 ≠ []

/-- Invariant of a slice in a heap: its backing array is allocated, as long as the
capacity, and the length is within the capacity. -/
def Slice.WF (h : Heap) (s : Slice) : Prop :=
  match s.arr with
  | none => s.len = 0
  | some a => ∃ arr, h.arrays[a]? = some arr ∧ s.len ≤ s.cap ∧ s.cap = arr.length

/-- Invariant of a descriptor in a heap: its map is allocated and its header slice
is well formed. -/
def Request.WF (h : Heap) (r : Request) : Prop :=
  (∀ ref, r.query = some ref → ref < h.maps.length) ∧ Slice.WF h r.headers

/-- The query values set on a descriptor: all the values of its map. -/
def Request.queryValues (h : Heap) (r : Request) : List GoString :=
  (r.queryMap h).flatMap Prod.snd

/-- The path template rendered with its bound arguments: the path verbatim when
no arguments are bound. -/
def Request.rendered (std : Std) (r : Request) : GoString :=
  if r.args = [] then r.path else std.Sprintf r.path r.args

/-- The descriptor `GET("/items/%d", 42).WithQuery(Int("limit", 10))`, built in the
empty heap, and the heap after building it. -/
def getItemLimit : Request × Heap := getItem.WithQuery Heap.empty [Int "limit" 10]

/-- An encoder that fails with `ErrBody`. -/
def rejecting : Any → Option Reader × Option GoError := fun _ => (none, some ErrBody)

/-- A standard library in which reading a response body yields the two bytes of
`ok` and then fails. -/
def partialReadStd : Std :=
  { goStd with ReadAll := fun _ => (bytesOf "ok", some (GoError.new "unexpected EOF")) }

/-- The key-sorted encoding of a multi-map, in the words of the specification: a
text is the key-sorted encoding of `m` when it is made of the pieces
`escape key = escape value`, joined by `&`, for the keys of `m` walked in sorted
order and, under each key, for its values in the order they were set. -/
def keySortedEncoding (escape : GoString → GoString) (m : url.Values) (s : GoString) : Prop :=
  ∃ ks : List GoString, ks.Sorted url.keyLe ∧ ks.Perm (m.map Prod.fst) ∧
    s = "&".intercalate (ks.flatMap fun k =>
      ((m.lookup k).getD []).map fun x => escape k ++ "=" ++ escape x)

/-- The descriptor `GET("/s").WithQuery(String("b", "2"), String("a", "1 x"),
String("b", "3"))`, built in the empty heap, and the heap after building it. -/
def getSorted : Request × Heap :=
  (GET "/s" []).WithQuery Heap.empty [String "b" "2", String "a" "1 x", String "b" "3"]

/-- A base URL whose host starts with a period. -/
def dotHost : url.URL := ⟨"https", ".example.com", "", ""⟩

end httpc

/-! ## Properties -/

namespace httpc

theorem take_indexOf_eq_takeWhile (l : List Char) :
    l.take (l.indexOf '.') = l.takeWhile (fun c => c ≠ '.') := by
  induction l with
  | nil => rfl
  | cons a t ih =>
    by_cases h : a = '.'
    · subst h; simp [List.indexOf_cons]
    · have h2 : (a == '.') = false := by simpa using h
      simp [List.indexOf_cons, h2, h, ih]

theorem indexPeriod_pos_iff (s : GoString) :
    0 < indexPeriod s ↔ '.' ∈ s.data ∧ s.data.head? ≠ some '.' := by
  unfold indexPeriod
  by_cases hm : '.' ∈ s.data
  · simp only [hm, if_true, true_and]
    cases hd : s.data with
    | nil => simp [hd] at hm
    | cons a t =>
      by_cases h : a = '.'
      · subst h; simp [List.indexOf_cons]
      · have h2 : (a == '.') = false := by simpa using h
        simp [List.indexOf_cons, h2, h]
  · simp [hm]

theorem sliceTo_indexPeriod (s : GoString) (h : 0 < indexPeriod s) :
    sliceTo s (indexPeriod s) = beforePeriod s := by
  have hm : '.' ∈ s.data := ((indexPeriod_pos_iff s).1 h).1
  unfold sliceTo beforePeriod indexPeriod
  simp [hm, take_indexOf_eq_takeWhile]

/-- Lower-casing a character never yields a period, unless it is one. -/
theorem toLower_period (c : Char) (h : c.toLower = '.') : c = '.' := by
  unfold Char.toLower at h
  simp only at h
  split at h
  · rename_i hr
    exfalso
    obtain ⟨h1, h2⟩ := hr
    generalize c.toNat = n at h h1 h2
    interval_cases n <;> exact absurd h (by decide)
  · exact h

/-- The model of `strings.ToLower` introduces no period. -/
theorem goStd_ToLower_period (s : GoString) (h : '.' ∉ s.data) :
    '.' ∉ (goStd.ToLower s).data := by
  intro hm
  simp only [goStd, goStd.ToLower, List.mem_map] at hm
  obtain ⟨c, hc, hcl⟩ := hm
  rw [toLower_period c hcl] at hc
  exact h hc

theorem beforePeriod_no_period (s : GoString) : '.' ∉ (beforePeriod s).data := by
  unfold beforePeriod
  simp only
  intro hmem
  have := List.mem_takeWhile_imp hmem
  simp at this


/-- Claim C10 as stated fails: for the host `.example.com` the hostname contains a
period, yet the name is the whole lowercase hostname, which contains a period
and is not the (empty) part before the first period. -/
theorem resolveName_leading_period :
    '.' ∈ (goStd.Hostname dotHost).data ∧
    resolveName goStd dotHost = ".example.com" ∧
    resolveName goStd dotHost ≠ goStd.ToLower (beforePeriod (goStd.Hostname dotHost)) ∧
    '.' ∈ (resolveName goStd dotHost).data := by
  decide

/-- Claim C10, amended: the default name of a Client is the lowercase of the part
of the hostname before its first period when the hostname contains a period
that is not its first character, and that part holds no period (nor does the
name, when lower-casing introduces none); it is the whole lowercase hostname
when the hostname holds no period or starts with one; `api.example.com` gives
`api` and `localhost` gives `localhost`. -/
theorem resolveName_spec (std : Std) (u : url.URL) :
    ('.' ∈ (std.Hostname u).data → (std.Hostname u).data.head? ≠ some '.' →
      resolveName std u = std.ToLower (beforePeriod (std.Hostname u)) ∧
      '.' ∉ (beforePeriod (std.Hostname u)).data ∧
      ((∀ s : GoString, '.' ∉ s.data → '.' ∉ (std.ToLower s).data) →
        '.' ∉ (resolveName std u).data)) ∧
    ('.' ∉ (std.Hostname u).data → resolveName std u = std.ToLower (std.Hostname u)) ∧
    ((std.Hostname u).data.head? = some '.' →
      resolveName std u = std.ToLower (std.Hostname u)) ∧
    (New std u []).name = resolveName std u ∧
    resolveName goStd ⟨"https", "api.example.com", "", ""⟩ = "api" ∧
    resolveName goStd ⟨"http", "localhost", "", ""⟩ = "localhost" := by
  refine ⟨?_, ?_, ?_, ?_, by decide, by decide⟩
  · intro hm hh
    have hpos : 0 < indexPeriod (std.Hostname u) := (indexPeriod_pos_iff _).2 ⟨hm, hh⟩
    have hname : resolveName std u = std.ToLower (beforePeriod (std.Hostname u)) := by
      unfold resolveName
      rw [if_pos hpos, sliceTo_indexPeriod _ hpos]
    refine ⟨hname, beforePeriod_no_period _, ?_⟩
    intro hlow
    rw [hname]
    exact hlow _ (beforePeriod_no_period _)
  · intro hm
    have hneg : ¬ 0 < indexPeriod (std.Hostname u) := by
      intro hpos
      exact hm ((indexPeriod_pos_iff _).1 hpos).1
    unfold resolveName
    rw [if_neg hneg]
  · intro hh
    have hneg : ¬ 0 < indexPeriod (std.Hostname u) := by
      intro hpos
      exact ((indexPeriod_pos_iff _).1 hpos).2 hh
    unfold resolveName
    rw [if_neg hneg]
  · simp [New]

/-- The amended claim C10 at the host `API.Example.com`. -/
theorem resolveName_spec_witness :
    '.' ∈ (goStd.Hostname ⟨"https", "API.Example.com", "", ""⟩).data ∧
    (goStd.Hostname ⟨"https", "API.Example.com", "", ""⟩).data.head? ≠ some '.' ∧
    resolveName goStd ⟨"https", "API.Example.com", "", ""⟩ =
      goStd.ToLower (beforePeriod (goStd.Hostname ⟨"https", "API.Example.com", "", ""⟩)) ∧
    '.' ∉ (resolveName goStd ⟨"https", "API.Example.com", "", ""⟩).data :=
  have h := (resolveName_spec goStd ⟨"https", "API.Example.com", "", ""⟩).1
    (by decide) (by decide)
  ⟨by decide, by decide, h.1, h.2.2 goStd_ToLower_period⟩

/-! ### The exit paths of `Do` -/

theorem Do_build_error (std : Std) (c : Client) (h : Heap) (r : Request) (v : Any)
    (cp : Option (http.Response → Bytes → Option GoError)) (err : GoError) (tr : List Event)
    (hH : (c.bound std h r).1.HTTP std (c.bound std h r).2 = (Except.error err, tr)) :
    c.Do std h r v cp =
      c.deferred (r.WithBase c.url) v (c.bound std h r).2 "" none 0
        (some (Errorf_w (c.Name ++ ": create http request error: ") err "")) tr := by
  unfold Client.bound at hH ⊢
  simp only [Client.Do, hH]

theorem Do_transport_error (std : Std) (c : Client) (h : Heap) (r : Request) (v : Any)
    (cp : Option (http.Response → Bytes → Option GoError)) (req : http.Request)
    (err : GoError) (tr : List Event)
    (hH : (c.bound std h r).1.HTTP std (c.bound std h r).2 = (Except.ok req, tr))
    (hD : std.Do c.client req = Except.error err) :
    c.Do std h r v cp =
      c.deferred (r.WithBase c.url) v (c.bound std h r).2 (std.URLString req.URL) none 0
        (some (Errorf_w (c.Name ++ ": do request error: ") err "")) (tr ++ [Event.send req]) := by
  unfold Client.bound at hH ⊢
  simp only [Client.Do, hH, hD]

theorem Do_read_error (std : Std) (c : Client) (h : Heap) (r : Request) (v : Any)
    (cp : Option (http.Response → Bytes → Option GoError)) (req : http.Request)
    (resp : http.Response) (raw : Bytes) (err : GoError) (tr : List Event)
    (hH : (c.bound std h r).1.HTTP std (c.bound std h r).2 = (Except.ok req, tr))
    (hD : std.Do c.client req = Except.ok resp)
    (hR : std.ReadAll resp.Body = (raw, some err)) :
    c.Do std h r v cp =
      c.deferred (r.WithBase c.url) v (c.bound std h r).2 (std.URLString req.URL) (some raw) 0
        (some (Errorf_w (c.Name ++ ": read body error: ") err ""))
        (tr ++ [Event.send req, Event.readAll resp.Body, Event.closeBody resp.Body]) := by
  unfold Client.bound at hH ⊢
  simp only [Client.Do, hH, hD, hR]

theorem Do_custom (std : Std) (c : Client) (h : Heap) (r : Request) (v : Any)
    (parse : http.Response → Bytes → Option GoError) (req : http.Request)
    (resp : http.Response) (raw : Bytes) (tr : List Event)
    (hH : (c.bound std h r).1.HTTP std (c.bound std h r).2 = (Except.ok req, tr))
    (hD : std.Do c.client req = Except.ok resp)
    (hR : std.ReadAll resp.Body = (raw, none)) :
    c.Do std h r v (some parse) =
      c.deferred (r.WithBase c.url) v (c.bound std h r).2 (std.URLString req.URL) (some raw)
        resp.StatusCode (parse resp raw)
        (tr ++ [Event.send req, Event.readAll resp.Body, Event.customParse resp raw,
          Event.closeBody resp.Body]) := by
  unfold Client.bound at hH ⊢
  simp only [Client.Do, hH, hD, hR]

theorem Do_status_handler (std : Std) (c : Client) (h : Heap) (r : Request) (v : Any)
    (handler : GoInt → Bytes → Option GoError) (req : http.Request)
    (resp : http.Response) (raw : Bytes) (tr : List Event)
    (hH : (c.bound std h r).1.HTTP std (c.bound std h r).2 = (Except.ok req, tr))
    (hD : std.Do c.client req = Except.ok resp)
    (hR : std.ReadAll resp.Body = (raw, none))
    (hS : resp.StatusCode ≥ 400) (hE : r.errorHandler = some handler) :
    c.Do std h r v none =
      c.deferred (r.WithBase c.url) v (c.bound std h r).2 (std.URLString req.URL) (some raw)
        resp.StatusCode (handler resp.StatusCode raw)
        (tr ++ [Event.send req, Event.readAll resp.Body,
          Event.errorHandler resp.StatusCode raw, Event.closeBody resp.Body]) := by
  unfold Client.bound at hH ⊢
  have hE2 : (r.WithBase c.url).errorHandler = some handler := hE
  simp only [Client.Do, hH, hD, hR, hS, if_true, hE2]

theorem Do_status_generic (std : Std) (c : Client) (h : Heap) (r : Request) (v : Any)
    (req : http.Request) (resp : http.Response) (raw : Bytes) (tr : List Event)
    (hH : (c.bound std h r).1.HTTP std (c.bound std h r).2 = (Except.ok req, tr))
    (hD : std.Do c.client req = Except.ok resp)
    (hR : std.ReadAll resp.Body = (raw, none))
    (hS : resp.StatusCode ≥ 400) (hE : r.errorHandler = none) :
    c.Do std h r v none =
      c.deferred (r.WithBase c.url) v (c.bound std h r).2 (std.URLString req.URL) (some raw)
        resp.StatusCode
        (some (GoError.new (c.Name ++ ": http status code: " ++ Itoa resp.StatusCode)))
        (tr ++ [Event.send req, Event.readAll resp.Body, Event.closeBody resp.Body]) := by
  unfold Client.bound at hH ⊢
  have hE2 : (r.WithBase c.url).errorHandler = none := hE
  simp only [Client.Do, hH, hD, hR, hS, if_true, hE2]

theorem Do_decode (std : Std) (c : Client) (h : Heap) (r : Request) (v : Any)
    (dec : Bytes → Any → Option GoError) (req : http.Request)
    (resp : http.Response) (raw : Bytes) (tr : List Event)
    (hH : (c.bound std h r).1.HTTP std (c.bound std h r).2 = (Except.ok req, tr))
    (hD : std.Do c.client req = Except.ok resp)
    (hR : std.ReadAll resp.Body = (raw, none))
    (hS : ¬ resp.StatusCode ≥ 400) (hdec : c.decode = some dec)
    (hlen : raw.length > 1) (hv : v ≠ Any.nil) :
    c.Do std h r v none =
      c.deferred (r.WithBase c.url) v (c.bound std h r).2 (std.URLString req.URL) (some raw)
        resp.StatusCode (dec raw v)
        (tr ++ [Event.send req, Event.readAll resp.Body, Event.decode raw v,
          Event.closeBody resp.Body]) := by
  unfold Client.bound at hH ⊢
  have hc : raw.length > 1 ∧ v ≠ Any.nil := ⟨hlen, hv⟩
  simp only [Client.Do, hH, hD, hR, hS, if_false, hdec]
  rw [if_pos hc]

theorem Do_no_decode (std : Std) (c : Client) (h : Heap) (r : Request) (v : Any)
    (req : http.Request) (resp : http.Response) (raw : Bytes) (tr : List Event)
    (hH : (c.bound std h r).1.HTTP std (c.bound std h r).2 = (Except.ok req, tr))
    (hD : std.Do c.client req = Except.ok resp)
    (hR : std.ReadAll resp.Body = (raw, none))
    (hS : ¬ resp.StatusCode ≥ 400)
    (hno : ¬ (raw.length > 1 ∧ c.decode ≠ none ∧ v ≠ Any.nil)) :
    c.Do std h r v none =
      c.deferred (r.WithBase c.url) v (c.bound std h r).2 (std.URLString req.URL) (some raw)
        resp.StatusCode none
        (tr ++ [Event.send req, Event.readAll resp.Body, Event.closeBody resp.Body]) := by
  unfold Client.bound at hH ⊢
  cases hdec : c.decode with
  | none => simp only [Client.Do, hH, hD, hR, hS, if_false, hdec]
  | some dec =>
    have hc : ¬ (raw.length > 1 ∧ v ≠ Any.nil) := by
      intro hc
      exact hno ⟨hc.1, by simp [hdec], hc.2⟩
    simp only [Client.Do, hH, hD, hR, hS, if_false, hdec]
    rw [if_neg hc]

/-- The only calls `HTTP` makes to a collaborator are encoder calls. -/
theorem HTTP_trace_encode (std : Std) (h : Heap) (r : Request) :
    ∀ e ∈ (r.HTTP std h).2, e.isEncode = true := by
  have hB : ∀ e ∈ r.Body.2, e.isEncode = true := by
    unfold Request.Body
    intro e he
    split at he <;> try (simp at he)
    all_goals (split at he <;> simp at he; subst he; rfl)
  unfold Request.HTTP
  intro e he
  split at he
  · simp at he
  · split at he
    · rename_i hb; rw [hb] at hB; exact hB e he
    · rename_i hb
      rw [hb] at hB
      split at he <;> exact hB e he

/-- The events before the logging hook on the paths that reach the response are
no calls of the hook. -/
theorem no_log_of_encode (tr : List Event) (h : ∀ e ∈ tr, e.isEncode = true) :
    ∀ e ∈ tr, e.isLog = false ∧ e.isDecode = false ∧ e.isErrorHandler = false := by
  intro e he
  have := h e he
  cases e <;> simp_all [Event.isEncode, Event.isLog, Event.isDecode, Event.isErrorHandler]

/-- The events of `HTTP` inside `Do` are encoder calls. -/
theorem wire_trace (std : Std) (c : Client) (h : Heap) (r : Request)
    (res : Except GoError http.Request) (tr : List Event)
    (hH : c.wire std h r = (res, tr)) :
    ∀ e ∈ tr, e.isLog = false ∧ e.isDecode = false ∧ e.isErrorHandler = false := by
  apply no_log_of_encode
  have := HTTP_trace_encode std (c.bound std h r).2 (c.bound std h r).1
  unfold Client.wire at hH
  rw [hH] at this
  exact this

/-- The trace of a return of `Do` holds no decode call when the calls before the
hook hold none. -/
theorem deferred_no_decode (c : Client) (r : Request) (v : Any) (heap : Heap)
    (urlText : GoString) (raw : Option Bytes) (status : GoInt) (err : Option GoError)
    (tr : List Event) (htr : ∀ e ∈ tr, e.isDecode = false) :
    ∀ ev ∈ (c.deferred r v heap urlText raw status err tr).trace, ev.isDecode = false := by
  intro ev hev
  unfold Client.deferred at hev
  simp only at hev
  split at hev
  · rcases List.mem_append.mp hev with hm | hm
    · exact htr ev hm
    · simp at hm; subst hm; rfl
  · exact htr ev hev

/-- The calls `Do` makes between the wire request and the hook, other than the
decode call, are no decode calls. -/
theorem no_decode_append (tr mid : List Event) (htr : ∀ e ∈ tr, e.isDecode = false)
    (hmid : ∀ e ∈ mid, e.isDecode = false) : ∀ e ∈ tr ++ mid, e.isDecode = false := by
  intro e he
  rcases List.mem_append.mp he with hm | hm
  · exact htr e hm
  · exact hmid e hm

/-! ### C4: the generic status error -/

/-- Claim C4 as stated fails when reading the body of the response fails: the
transport returns a response with status code 404, there is no custom parser
and no error handler, and `Do` returns the wrapped read error, whose message
does not contain `404`. -/
theorem Do_status_lost_on_read_failure :
    goStd.Do (apiClient (respond 404 (Reader.stream 1))).client itemRequest =
      Except.ok ⟨404, Reader.stream 1⟩ ∧
    getItem.errorHandler.isNone = true ∧
    ((apiClient (respond 404 (Reader.stream 1))).Do goStd Heap.empty getItem
      (Any.other 0) none).err =
      some (GoError.wrap "api: read body error: unexpected EOF"
        (GoError.new "unexpected EOF")) ∧
    Itoa 404 = "404" ∧
    ¬ ("404".data <:+: "api: read body error: unexpected EOF".data) :=
  ⟨by rfl, by rfl, by decide, by decide, by decide⟩

/-- Claim C4, amended: with no custom parser and no error handler on the
descriptor, when the transport's response has a status code `s >= 400`, `Do`
returns a non-nil error whose message contains the Client's name, and the
decode function is not invoked; when the body of the response was read without
error, the message is the name, then `: http status code: `, then the decimal
rendering of `s`, so it contains that rendering; when reading the body fails,
the message is the name, then `: read body error: `, then the message of the
read error. -/
theorem Do_generic_status_error (std : Std) (c : Client) (h : Heap) (r : Request) (v : Any)
    (req : http.Request) (resp : http.Response) (tr : List Event)
    (hH : c.wire std h r = (Except.ok req, tr))
    (hD : std.Do c.client req = Except.ok resp)
    (hE : r.errorHandler = none) (hS : resp.StatusCode ≥ 400) :
    ∃ e : GoError, (c.Do std h r v none).err = some e ∧
      c.name.data <:+: e.Error.data ∧
      (∀ ev ∈ (c.Do std h r v none).trace, ev.isDecode = false) ∧
      (∀ raw, std.ReadAll resp.Body = (raw, none) →
        e.Error = c.name ++ ": http status code: " ++ Itoa resp.StatusCode ∧
        (Itoa resp.StatusCode).data <:+: e.Error.data) ∧
      (∀ raw e0, std.ReadAll resp.Body = (raw, some e0) →
        e.Error = c.name ++ ": read body error: " ++ e0.Error) := by
  have htr : ∀ e ∈ tr, e.isDecode = false := fun e he => (wire_trace std c h r _ tr hH e he).2.1
  unfold Client.wire at hH
  rcases hR : std.ReadAll resp.Body with ⟨raw, rerr⟩
  cases rerr with
  | some e0 =>
    rw [Do_read_error std c h r v none req resp raw e0 tr hH hD hR]
    refine ⟨_, rfl, ?_, ?_, ?_, ?_⟩
    · simp only [Errorf_w, GoError.Error, Client.Name, String.data_append, List.append_assoc]
      exact (List.prefix_append _ _).isInfix
    · exact deferred_no_decode c _ v _ _ _ _ _ _ (no_decode_append tr _ htr (by
        intro e he; simp at he
        rcases he with hm | hm | hm <;> (subst hm; rfl)))
    · intro raw2 h2
      simp at h2
    · intro raw2 e1 h2
      simp only [Prod.mk.injEq, Option.some.injEq] at h2
      obtain ⟨_, h3⟩ := h2
      subst h3
      simp [Errorf_w, GoError.Error, Client.Name]
  | none =>
    rw [Do_status_generic std c h r v req resp raw tr hH hD hR hS hE]
    refine ⟨_, rfl, ?_, ?_, ?_, ?_⟩
    · simp only [GoError.Error, Client.Name, String.data_append, List.append_assoc]
      exact (List.prefix_append _ _).isInfix
    · exact deferred_no_decode c _ v _ _ _ _ _ _ (no_decode_append tr _ htr (by
        intro e he; simp at he
        rcases he with hm | hm | hm <;> (subst hm; rfl)))
    · intro raw2 _
      refine ⟨rfl, ?_⟩
      simp only [GoError.Error, Client.Name, String.data_append]
      exact (List.suffix_append _ _).isInfix
    · intro raw2 e1 h2
      simp at h2

/-- The amended claim C4 at the 404 example: the body is read, and the Client
named `api` returns the error `api: http status code: 404`. -/
theorem Do_generic_status_error_witness :
    (apiClient (respond 404 (Reader.buffer notFoundBody))).name = "api" ∧
    Itoa 404 = "404" ∧
    goStd.ReadAll (Reader.buffer notFoundBody) = (notFoundBody, none) ∧
    ∃ e : GoError,
      ((apiClient (respond 404 (Reader.buffer notFoundBody))).Do goStd Heap.empty getItem
        (Any.other 0) none).err = some e ∧
      "api".data <:+: e.Error.data ∧
      (∀ ev ∈ ((apiClient (respond 404 (Reader.buffer notFoundBody))).Do goStd Heap.empty
        getItem (Any.other 0) none).trace, ev.isDecode = false) ∧
      e.Error = "api" ++ ": http status code: " ++ Itoa 404 ∧
      (Itoa 404).data <:+: e.Error.data :=
  have ht := Do_generic_status_error goStd (apiClient (respond 404 (Reader.buffer notFoundBody)))
    Heap.empty getItem (Any.other 0) itemRequest ⟨404, Reader.buffer notFoundBody⟩
    [] (by rfl) (by rfl) (by rfl) (by decide)
  ⟨by decide, by decide, by rfl,
    ht.elim fun e he =>
      ⟨e, he.1, he.2.1, he.2.2.1, (he.2.2.2.1 notFoundBody (by rfl)).1,
        (he.2.2.2.1 notFoundBody (by rfl)).2⟩⟩

/-! ### C5: the decode rule -/

/-- Claim C5 as stated fails when reading the body of the response fails: the
response has status code 200, two bytes of its body are read before the read
error, a decode function is configured and the target is non-nil, yet decode is
not invoked and `Do` returns the wrapped read error; and with no byte read
before the read error, `Do` returns an error as well. -/
theorem Do_decode_skipped_on_read_failure :
    partialReadStd.Do
      (New partialReadStd apiBase [WithTransport (some (respond 200 (Reader.stream 1))),
        WithDecode (some acceptAll)]).client itemRequest = Except.ok ⟨200, Reader.stream 1⟩ ∧
    partialReadStd.ReadAll (Reader.stream 1) =
      (bytesOf "ok", some (GoError.new "unexpected EOF")) ∧
    (bytesOf "ok").length > 1 ∧
    (New partialReadStd apiBase [WithTransport (some (respond 200 (Reader.stream 1))),
      WithDecode (some acceptAll)]).decode.isSome = true ∧
    Any.other 0 ≠ Any.nil ∧
    (∀ ev ∈ ((New partialReadStd apiBase [WithTransport (some (respond 200 (Reader.stream 1))),
        WithDecode (some acceptAll)]).Do partialReadStd Heap.empty getItem
        (Any.other 0) none).trace, ev.isDecode = false) ∧
    ((New partialReadStd apiBase [WithTransport (some (respond 200 (Reader.stream 1))),
        WithDecode (some acceptAll)]).Do partialReadStd Heap.empty getItem
        (Any.other 0) none).err =
      some (GoError.wrap "api: read body error: unexpected EOF"
        (GoError.new "unexpected EOF")) ∧
    goStd.ReadAll (Reader.stream 1) = ([], some (GoError.new "unexpected EOF")) ∧
    ((New goStd apiBase [WithTransport (some (respond 200 (Reader.stream 1))),
        WithDecode (some acceptAll)]).Do goStd Heap.empty getItem (Any.other 0) none).err =
      some (GoError.wrap "api: read body error: unexpected EOF"
        (GoError.new "unexpected EOF")) :=
  ⟨by rfl, by rfl, by decide, by rfl, by decide, by decide, by decide, by rfl, by decide⟩

/-- Claim C5, amended: with no custom parser and a response of status code below
400 whose body was read without error, the decode function is invoked if and
only if the body is longer than one byte, a decode function is configured and
the output target is non-nil; it is then invoked once, on the raw bytes and the
target, and its result is what `Do` returns; otherwise, in particular for an
empty or single-byte body, it is not invoked and `Do` returns no error.  When
reading the body fails, decode is not invoked and `Do` returns the read error,
wrapped. -/
theorem Do_decode_rule (std : Std) (c : Client) (h : Heap) (r : Request) (v : Any)
    (req : http.Request) (resp : http.Response) (tr : List Event)
    (hH : c.wire std h r = (Except.ok req, tr))
    (hD : std.Do c.client req = Except.ok resp)
    (hS : resp.StatusCode < 400) :
    (∀ raw, std.ReadAll resp.Body = (raw, none) →
      ((∃ ev ∈ (c.Do std h r v none).trace, ev.isDecode = true) ↔
        (raw.length > 1 ∧ c.decode ≠ none ∧ v ≠ Any.nil)) ∧
      (∀ dec, c.decode = some dec → raw.length > 1 → v ≠ Any.nil →
        (c.Do std h r v none).err = dec raw v ∧
        (c.Do std h r v none).trace.filter Event.isDecode = [Event.decode raw v]) ∧
      (¬ (raw.length > 1 ∧ c.decode ≠ none ∧ v ≠ Any.nil) →
        (c.Do std h r v none).err = none) ∧
      (raw.length ≤ 1 →
        (c.Do std h r v none).err = none ∧
        ∀ ev ∈ (c.Do std h r v none).trace, ev.isDecode = false)) ∧
    (∀ raw e0, std.ReadAll resp.Body = (raw, some e0) →
      (c.Do std h r v none).err =
        some (Errorf_w (c.name ++ ": read body error: ") e0 "") ∧
      ∀ ev ∈ (c.Do std h r v none).trace, ev.isDecode = false) := by
  have hS2 : ¬ resp.StatusCode ≥ 400 := not_le.mpr hS
  have htr : ∀ e ∈ tr, e.isDecode = false := fun e he => (wire_trace std c h r _ tr hH e he).2.1
  have htrf : tr.filter Event.isDecode = [] := by
    rw [List.filter_eq_nil_iff]
    intro e he
    simp [htr e he]
  unfold Client.wire at hH
  constructor
  · intro raw hR
    have hyes : ∀ dec, c.decode = some dec → raw.length > 1 → v ≠ Any.nil →
        (c.Do std h r v none).err = dec raw v ∧
        (c.Do std h r v none).trace.filter Event.isDecode = [Event.decode raw v] := by
      intro dec hdec hlen hv
      rw [Do_decode std c h r v dec req resp raw tr hH hD hR hS2 hdec hlen hv]
      refine ⟨rfl, ?_⟩
      unfold Client.deferred
      simp only
      split <;> simp [List.filter_append, htrf, List.filter_cons, Event.isDecode]
    have hno : ¬ (raw.length > 1 ∧ c.decode ≠ none ∧ v ≠ Any.nil) →
        (c.Do std h r v none).err = none ∧
        ∀ ev ∈ (c.Do std h r v none).trace, ev.isDecode = false := by
      intro hcond
      rw [Do_no_decode std c h r v req resp raw tr hH hD hR hS2 hcond]
      refine ⟨rfl, ?_⟩
      exact deferred_no_decode c _ v _ _ _ _ _ _ (no_decode_append tr _ htr (by
        intro e he; simp at he
        rcases he with hm | hm | hm <;> (subst hm; rfl)))
    refine ⟨⟨?_, ?_⟩, hyes, fun hc => (hno hc).1, ?_⟩
    · rintro ⟨ev, hev, hdecode⟩
      by_contra hcond
      have := (hno hcond).2 ev hev
      rw [this] at hdecode
      exact Bool.noConfusion hdecode
    · rintro ⟨hlen, hdec, hv⟩
      obtain ⟨dec, hdec2⟩ := Option.ne_none_iff_exists'.mp hdec
      have hf := (hyes dec hdec2 hlen hv).2
      refine ⟨Event.decode raw v, ?_, rfl⟩
      have : Event.decode raw v ∈ (c.Do std h r v none).trace.filter Event.isDecode := by
        rw [hf]; exact List.mem_singleton.mpr rfl
      exact (List.mem_filter.mp this).1
    · intro hlen
      exact hno (fun hc => by omega)
  · intro raw e0 hR
    rw [Do_read_error std c h r v none req resp raw e0 tr hH hD hR]
    refine ⟨rfl, ?_⟩
    exact deferred_no_decode c _ v _ _ _ _ _ _ (no_decode_append tr _ htr (by
      intro e he; simp at he
      rcases he with hm | hm | hm <;> (subst hm; rfl)))

/-- The amended claim C5 at a 200 response with body `ok`, read without error and
decoded by a function that accepts every input: decode is called once, on the
two bytes and the target, and `Do` returns its result. -/
theorem Do_decode_rule_witness :
    (200 : GoInt) < 400 ∧
    goStd.ReadAll (Reader.buffer (bytesOf "ok")) = (bytesOf "ok", none) ∧
    (bytesOf "ok").length > 1 ∧
    ((New goStd apiBase [WithTransport (some (respond 200 (Reader.buffer (bytesOf "ok")))),
        WithDecode (some acceptAll)]).Do goStd Heap.empty getItem (Any.other 0) none).err =
      acceptAll (bytesOf "ok") (Any.other 0) ∧
    ((New goStd apiBase [WithTransport (some (respond 200 (Reader.buffer (bytesOf "ok")))),
        WithDecode (some acceptAll)]).Do goStd Heap.empty getItem
        (Any.other 0) none).trace.filter Event.isDecode =
      [Event.decode (bytesOf "ok") (Any.other 0)] :=
  have ht := ((Do_decode_rule goStd
      (New goStd apiBase [WithTransport (some (respond 200 (Reader.buffer (bytesOf "ok")))),
        WithDecode (some acceptAll)])
      Heap.empty getItem (Any.other 0) itemRequest ⟨200, Reader.buffer (bytesOf "ok")⟩
      [] (by rfl) (by rfl) (by decide)).1 (bytesOf "ok") (by rfl)).2.1
        acceptAll (by rfl) (by decide) (by decide)
  ⟨by decide, by rfl, by decide, ht.1, ht.2⟩

/-! ### C6: the custom parser -/

/-- Claim C6: with a custom parser, when the transport call and the body read
succeed, `Do` returns exactly the parser's result for the response and its raw
bytes, whatever the status code, the parser is invoked once, and neither the
descriptor's error handler nor the decode function is invoked. -/
theorem Do_customParse_bypass (std : Std) (c : Client) (h : Heap) (r : Request) (v : Any)
    (parse : http.Response → Bytes → Option GoError)
    (req : http.Request) (resp : http.Response) (raw : Bytes) (tr : List Event)
    (hH : c.wire std h r = (Except.ok req, tr))
    (hD : std.Do c.client req = Except.ok resp)
    (hR : std.ReadAll resp.Body = (raw, none)) :
    (c.Do std h r v (some parse)).err = parse resp raw ∧
    Event.customParse resp raw ∈ (c.Do std h r v (some parse)).trace ∧
    ∀ ev ∈ (c.Do std h r v (some parse)).trace,
      ev.isErrorHandler = false ∧ ev.isDecode = false := by
  have htr := wire_trace std c h r _ tr hH
  unfold Client.wire at hH
  rw [Do_custom std c h r v parse req resp raw tr hH hD hR]
  refine ⟨rfl, ?_, ?_⟩
  · unfold Client.deferred
    simp only
    split <;> simp
  · intro ev hev
    unfold Client.deferred at hev
    simp only at hev
    split at hev
    · simp only [List.mem_append, List.mem_cons, List.mem_singleton, List.not_mem_nil,
        or_false] at hev
      rcases hev with (hm | hm | hm | hm | hm) | hm
      · exact ⟨(htr ev hm).2.2, (htr ev hm).2.1⟩
      all_goals (subst hm; exact ⟨rfl, rfl⟩)
    · simp only [List.mem_append, List.mem_cons, List.mem_singleton, List.not_mem_nil,
        or_false] at hev
      rcases hev with hm | hm | hm | hm | hm
      · exact ⟨(htr ev hm).2.2, (htr ev hm).2.1⟩
      all_goals (subst hm; exact ⟨rfl, rfl⟩)

/-- Claim C6 at a 500 response, on a descriptor and a Client that have a decode
function: the parser's result is returned. -/
theorem Do_customParse_bypass_witness :
    ((apiClient (respond 500 (Reader.buffer notFoundBody))).Do goStd Heap.empty getItem
      (Any.other 0) (some reportStatus)).err = some (GoError.new "status 500") :=
  (Do_customParse_bypass goStd (apiClient (respond 500 (Reader.buffer notFoundBody)))
    Heap.empty getItem (Any.other 0) reportStatus itemRequest
    ⟨500, Reader.buffer notFoundBody⟩ notFoundBody [] (by rfl) (by rfl) (by rfl)).1

/-! ### C7: the logging hook -/

/-- The deferred call: with a hook configured, the trace ends with the one call of
the hook, made with the error returned. -/
theorem deferred_log (c : Client) (r : Request) (v : Any) (heap : Heap) (urlText : GoString)
    (raw : Option Bytes) (status : GoInt) (err : Option GoError) (tr : List Event)
    (hlog : c.logFunc = true) (htr : ∀ e ∈ tr, e.isLog = false) :
    ∃ (pre : List Event) (u : GoString) (b : Option Bytes),
      (c.deferred r v heap urlText raw status err tr).trace =
        pre ++ [Event.log c.name r.method u status v b
          (c.deferred r v heap urlText raw status err tr).err] ∧
      ∀ e ∈ pre, e.isLog = false :=
  ⟨tr, urlText, raw, by simp [Client.deferred, hlog, Client.Name, Request.Method], htr⟩

/-- Claim C7 as stated fails on the body read failure path: the transport returns
a response with status code 200, reading its body fails, and the hook is called
with status code 0. -/
theorem Do_log_status_read_failure :
    goStd.Do (apiClient (respond 200 (Reader.stream 1))).client itemRequest =
      Except.ok ⟨200, Reader.stream 1⟩ ∧
    ((apiClient (respond 200 (Reader.stream 1))).Do goStd Heap.empty getItem Any.nil none).trace =
      [Event.send itemRequest, Event.readAll (Reader.stream 1),
       Event.closeBody (Reader.stream 1),
       Event.log "api" "GET" "https://api.example.com/items/42" 0 Any.nil (some [])
         (some (GoError.wrap "api: read body error: unexpected EOF"
           (GoError.new "unexpected EOF")))] :=
  ⟨by rfl, by decide⟩

/-- Claim C7, amended: on every exit path of `Do`, a configured hook is invoked
exactly once, as the last call, with the error `Do` returns; the status code
passed to it is the status code of the transport's response when the body of
that response was read to the end, and zero otherwise (request build failure,
transport failure, body read failure). -/
theorem Do_log_once (std : Std) (c : Client) (h : Heap) (r : Request) (v : Any)
    (cp : Option (http.Response → Bytes → Option GoError)) (hlog : c.logFunc = true) :
    ∃ (pre : List Event) (u : GoString) (b : Option Bytes),
      (c.Do std h r v cp).trace =
        pre ++ [Event.log c.name r.method u (loggedStatus std c h r) v b
          (c.Do std h r v cp).err] ∧
      ∀ e ∈ pre, e.isLog = false := by
  rcases hW : c.wire std h r with ⟨res, tr⟩
  have htr : ∀ e ∈ tr, e.isLog = false := fun e he => (wire_trace std c h r _ tr hW e he).1
  have hW2 := hW
  unfold Client.wire at hW2
  cases res with
  | error e0 =>
    have hs : loggedStatus std c h r = 0 := by simp [loggedStatus, hW]
    rw [hs, Do_build_error std c h r v cp e0 tr hW2]
    exact deferred_log c (r.WithBase c.url) v _ _ _ _ _ tr hlog htr
  | ok req =>
    cases hD : std.Do c.client req with
    | error e0 =>
      have hs : loggedStatus std c h r = 0 := by simp [loggedStatus, hW, hD]
      rw [hs, Do_transport_error std c h r v cp req e0 tr hW2 hD]
      refine deferred_log c (r.WithBase c.url) v _ _ _ _ _ _ hlog ?_
      intro e he
      rcases List.mem_append.mp he with hm | hm
      · exact htr e hm
      · simp at hm; subst hm; rfl
    | ok resp =>
      rcases hR : std.ReadAll resp.Body with ⟨raw, rerr⟩
      have hpre : ∀ (mid : List Event), (∀ e ∈ mid, e.isLog = false) →
          ∀ e ∈ tr ++ mid, e.isLog = false := by
        intro mid hmid e he
        rcases List.mem_append.mp he with hm | hm
        · exact htr e hm
        · exact hmid e hm
      cases rerr with
      | some e0 =>
        have hs : loggedStatus std c h r = 0 := by simp [loggedStatus, hW, hD, hR]
        rw [hs, Do_read_error std c h r v cp req resp raw e0 tr hW2 hD hR]
        exact deferred_log c (r.WithBase c.url) v _ _ _ _ _ _ hlog
          (hpre _ (by intro e he; simp at he; rcases he with hm | hm | hm <;> (subst hm; rfl)))
      | none =>
        have hs : loggedStatus std c h r = resp.StatusCode := by
          simp [loggedStatus, hW, hD, hR]
        rw [hs]
        cases cp with
        | some parse =>
          rw [Do_custom std c h r v parse req resp raw tr hW2 hD hR]
          exact deferred_log c (r.WithBase c.url) v _ _ _ _ _ _ hlog
            (hpre _ (by
              intro e he; simp at he
              rcases he with hm | hm | hm | hm <;> (subst hm; rfl)))
        | none =>
          by_cases hS : resp.StatusCode ≥ 400
          · cases hE : r.errorHandler with
            | some handler =>
              rw [Do_status_handler std c h r v handler req resp raw tr hW2 hD hR hS hE]
              exact deferred_log c (r.WithBase c.url) v _ _ _ _ _ _ hlog
                (hpre _ (by
                  intro e he; simp at he
                  rcases he with hm | hm | hm | hm <;> (subst hm; rfl)))
            | none =>
              rw [Do_status_generic std c h r v req resp raw tr hW2 hD hR hS hE]
              exact deferred_log c (r.WithBase c.url) v _ _ _ _ _ _ hlog
                (hpre _ (by
                  intro e he; simp at he
                  rcases he with hm | hm | hm <;> (subst hm; rfl)))
          · by_cases hc : raw.length > 1 ∧ c.decode ≠ none ∧ v ≠ Any.nil
            · obtain ⟨dec, hdec⟩ := Option.ne_none_iff_exists'.mp hc.2.1
              rw [Do_decode std c h r v dec req resp raw tr hW2 hD hR hS hdec hc.1 hc.2.2]
              exact deferred_log c (r.WithBase c.url) v _ _ _ _ _ _ hlog
                (hpre _ (by
                  intro e he; simp at he
                  rcases he with hm | hm | hm | hm <;> (subst hm; rfl)))
            · rw [Do_no_decode std c h r v req resp raw tr hW2 hD hR hS hc]
              exact deferred_log c (r.WithBase c.url) v _ _ _ _ _ _ hlog
                (hpre _ (by
                  intro e he; simp at he
                  rcases he with hm | hm | hm <;> (subst hm; rfl)))

/-- The amended claim C7 at a transport failure: the hook is the only call after
the send, with status code zero and the wrapped transport error. -/
theorem Do_log_once_witness :
    (apiClient refuse).logFunc = true ∧
    loggedStatus goStd (apiClient refuse) Heap.empty getItem = 0 ∧
    ∃ (pre : List Event) (u : GoString) (b : Option Bytes),
      ((apiClient refuse).Do goStd Heap.empty getItem Any.nil none).trace =
        pre ++ [Event.log (apiClient refuse).name getItem.method u
          (loggedStatus goStd (apiClient refuse) Heap.empty getItem) Any.nil b
          ((apiClient refuse).Do goStd Heap.empty getItem Any.nil none).err] ∧
      ∀ e ∈ pre, e.isLog = false :=
  ⟨by rfl, by rfl, Do_log_once goStd (apiClient refuse) Heap.empty getItem Any.nil none (by rfl)⟩

/-! ### C8: error wrapping -/

/-- The message and the chain of an error made by `fmt.Errorf` with `%w` last. -/
theorem Errorf_w_spec (pre : GoString) (err : GoError) :
    (Errorf_w pre err "").Error = pre ++ err.Error ∧
    ∀ e ∈ err.chain, e ∈ (Errorf_w pre err "").chain := by
  refine ⟨by simp [Errorf_w, GoError.Error], ?_⟩
  intro e he
  simp [Errorf_w, GoError.chain, he]

theorem Errorf_w_Error (pre : GoString) (err : GoError) (suf : GoString) :
    (Errorf_w pre err suf).Error = pre ++ err.Error ++ suf := rfl

theorem Errorf_w_chain (pre : GoString) (err : GoError) (suf : GoString) (e : GoError)
    (he : e ∈ err.chain) : e ∈ (Errorf_w pre err suf).chain := by
  simp [Errorf_w, GoError.chain, he]

theorem append_lit (a b ab x : GoString) (hab : a ++ b = ab) : a ++ (b ++ x) = ab ++ x := by
  rw [← hab, String.append_assoc]

/-- An error is in its own chain. -/
theorem GoError.mem_chain_self (e : GoError) : e ∈ e.chain := by
  cases e <;> simp [GoError.chain]

theorem HTTP_parse_error (std : Std) (h : Heap) (r : Request) (e0 : GoError)
    (hP : std.Parse r.base (r.URI std h) = Except.error e0) :
    r.HTTP std h =
      (Except.error (Errorf_w "parse url error: " (Errorf_w "" e0 ": invalid url") ""), []) := by
  simp only [Request.HTTP, Request.ParseURL, hP]

theorem HTTP_body_error (std : Std) (h : Heap) (r : Request) (u : url.URL) (e0 : GoError)
    (hP : r.ParseURL std h = Except.ok u) (hB : r.Body.1.2 = some e0) :
    (r.HTTP std h).1 = Except.error (Errorf_w "create body error: " e0 "") := by
  rcases hb : r.Body with ⟨⟨b, berr⟩, tr⟩
  rw [hb] at hB
  simp only at hB
  subst hB
  simp only [Request.HTTP, hP, hb]

theorem HTTP_request_error (std : Std) (h : Heap) (r : Request) (u : url.URL)
    (b : Option Reader) (e0 : GoError)
    (hP : r.ParseURL std h = Except.ok u) (hB : r.Body.1 = (b, none))
    (hN : std.NewRequestWithContext r.method (std.URLString u) b = Except.error e0) :
    (r.HTTP std h).1 = Except.error (Errorf_w "create request error: " e0 "") := by
  rcases hb : r.Body with ⟨⟨b2, berr⟩, tr⟩
  rw [hb] at hB
  simp only [Prod.mk.injEq] at hB
  obtain ⟨h1, h2⟩ := hB
  subst h1 h2
  simp only [Request.HTTP, hP, hb, hN]

/-- The error `Do` returns when the wire request could not be built. -/
theorem Do_build_error_err (std : Std) (c : Client) (h : Heap) (r : Request) (v : Any)
    (cp : Option (http.Response → Bytes → Option GoError)) (err : GoError)
    (hH : (c.wire std h r).1 = Except.error err) :
    (c.Do std h r v cp).err =
      some (Errorf_w (c.name ++ ": create http request error: ") err "") := by
  rcases hW : c.wire std h r with ⟨res, tr⟩
  rw [hW] at hH
  simp only at hH
  subst hH
  unfold Client.wire at hW
  rw [Do_build_error std c h r v cp err tr hW]
  rfl

/-- Claim C8 as stated fails for the decode failure kind: the error of the decode
function is returned as it is, its message does not carry the Client's name. -/
theorem Do_decode_error_unwrapped :
    (New goStd apiBase [WithTransport (some (respond 200 (Reader.buffer (bytesOf "oops"))))]).name
      = "api" ∧
    ((New goStd apiBase [WithTransport (some (respond 200 (Reader.buffer (bytesOf "oops"))))]).Do
      goStd Heap.empty getItem (Any.other 0) none).err =
      some (GoError.new "invalid character looking for beginning of value") ∧
    goStd.JSONUnmarshal (bytesOf "oops") (Any.other 0) =
      some (GoError.new "invalid character looking for beginning of value") ∧
    ¬ ("api".data <:+: "invalid character looking for beginning of value".data) := by
  decide

/-- Claim C8, amended: the error `Do` returns for a failure of URL construction,
body construction, request construction, transport or body read has a message
that starts with the Client's name and a stage description and ends with the
message of the cause, and the cause is in its chain; for a status code `>= 400`
without handler and custom parser it is the error with message
`<name>: http status code: <code>`, with no cause; the error of the decode
function of a successful response is returned exactly as decode produced it. -/
theorem Do_error_wrapping (std : Std) (c : Client) (h : Heap) (r : Request) (v : Any)
    (cp : Option (http.Response → Bytes → Option GoError)) :
    (∀ e0, std.Parse (some c.url) ((c.bound std h r).1.URI std (c.bound std h r).2) =
        Except.error e0 →
      ∃ E, (c.Do std h r v cp).err = some E ∧
        E.Error = c.name ++ ": create http request error: parse url error: " ++ e0.Error ++
          ": invalid url" ∧ e0 ∈ E.chain) ∧
    (∀ u e0, (c.bound std h r).1.ParseURL std (c.bound std h r).2 = Except.ok u →
        (c.bound std h r).1.Body.1.2 = some e0 →
      ∃ E, (c.Do std h r v cp).err = some E ∧
        E.Error = c.name ++ ": create http request error: create body error: " ++ e0.Error ∧
        e0 ∈ E.chain) ∧
    (∀ u b e0, (c.bound std h r).1.ParseURL std (c.bound std h r).2 = Except.ok u →
        (c.bound std h r).1.Body.1 = (b, none) →
        std.NewRequestWithContext r.method (std.URLString u) b = Except.error e0 →
      ∃ E, (c.Do std h r v cp).err = some E ∧
        E.Error = c.name ++ ": create http request error: create request error: " ++ e0.Error ∧
        e0 ∈ E.chain) ∧
    (∀ req tr e0, c.wire std h r = (Except.ok req, tr) →
        std.Do c.client req = Except.error e0 →
      ∃ E, (c.Do std h r v cp).err = some E ∧
        E.Error = c.name ++ ": do request error: " ++ e0.Error ∧ e0 ∈ E.chain) ∧
    (∀ req tr resp raw e0, c.wire std h r = (Except.ok req, tr) →
        std.Do c.client req = Except.ok resp → std.ReadAll resp.Body = (raw, some e0) →
      ∃ E, (c.Do std h r v cp).err = some E ∧
        E.Error = c.name ++ ": read body error: " ++ e0.Error ∧ e0 ∈ E.chain) ∧
    (∀ req tr resp raw, cp = none → r.errorHandler = none →
        c.wire std h r = (Except.ok req, tr) →
        std.Do c.client req = Except.ok resp → std.ReadAll resp.Body = (raw, none) →
        resp.StatusCode ≥ 400 →
      (c.Do std h r v cp).err =
        some (GoError.new (c.name ++ ": http status code: " ++ Itoa resp.StatusCode))) ∧
    (∀ req tr resp raw dec, cp = none → c.wire std h r = (Except.ok req, tr) →
        std.Do c.client req = Except.ok resp → std.ReadAll resp.Body = (raw, none) →
        resp.StatusCode < 400 → c.decode = some dec → raw.length > 1 → v ≠ Any.nil →
      (c.Do std h r v cp).err = dec raw v) := by
  refine ⟨?_, ?_, ?_, ?_, ?_, ?_, ?_⟩
  · intro e0 hP
    have hH := HTTP_parse_error std (c.bound std h r).2 (c.bound std h r).1 e0 hP
    refine ⟨_, Do_build_error_err std c h r v cp _ (by rw [Client.wire, hH]), ?_, ?_⟩
    · simp only [Errorf_w_Error, String.append_assoc, String.append_empty, String.empty_append]
      rw [append_lit ": create http request error: " "parse url error: "
        ": create http request error: parse url error: " _ (by decide)]
    · exact Errorf_w_chain _ _ _ _ (Errorf_w_chain _ _ _ _ (Errorf_w_chain _ _ _ _
        (GoError.mem_chain_self e0)))
  · intro u e0 hP hB
    have hH := HTTP_body_error std (c.bound std h r).2 (c.bound std h r).1 u e0 hP hB
    refine ⟨_, Do_build_error_err std c h r v cp _ hH, ?_, ?_⟩
    · simp only [Errorf_w_Error, String.append_assoc, String.append_empty]
      rw [append_lit ": create http request error: " "create body error: "
        ": create http request error: create body error: " _ (by decide)]
    · exact Errorf_w_chain _ _ _ _ (Errorf_w_chain _ _ _ _ (GoError.mem_chain_self e0))
  · intro u b e0 hP hB hN
    have hH := HTTP_request_error std (c.bound std h r).2 (c.bound std h r).1 u b e0 hP hB hN
    refine ⟨_, Do_build_error_err std c h r v cp _ hH, ?_, ?_⟩
    · simp only [Errorf_w_Error, String.append_assoc, String.append_empty]
      rw [append_lit ": create http request error: " "create request error: "
        ": create http request error: create request error: " _ (by decide)]
    · exact Errorf_w_chain _ _ _ _ (Errorf_w_chain _ _ _ _ (GoError.mem_chain_self e0))
  · intro req tr e0 hW hD
    unfold Client.wire at hW
    rw [Do_transport_error std c h r v cp req e0 tr hW hD]
    exact ⟨_, rfl, (Errorf_w_spec _ e0).1, (Errorf_w_spec _ e0).2 _ (GoError.mem_chain_self e0)⟩
  · intro req tr resp raw e0 hW hD hR
    unfold Client.wire at hW
    rw [Do_read_error std c h r v cp req resp raw e0 tr hW hD hR]
    exact ⟨_, rfl, (Errorf_w_spec _ e0).1, (Errorf_w_spec _ e0).2 _ (GoError.mem_chain_self e0)⟩
  · intro req tr resp raw hcp hE hW hD hR hS
    subst hcp
    unfold Client.wire at hW
    rw [Do_status_generic std c h r v req resp raw tr hW hD hR hS hE]
    rfl
  · intro req tr resp raw dec hcp hW hD hR hS hdec hlen hv
    subst hcp
    unfold Client.wire at hW
    rw [Do_decode std c h r v dec req resp raw tr hW hD hR (not_le.mpr hS) hdec hlen hv]
    rfl

/-- The amended claim C8 at a transport failure. -/
theorem Do_error_wrapping_witness :
    (apiClient refuse).wire goStd Heap.empty getItem = (Except.ok itemRequest, []) ∧
    goStd.Do (apiClient refuse).client itemRequest =
      Except.error (GoError.new "context canceled") ∧
    ∃ E, ((apiClient refuse).Do goStd Heap.empty getItem Any.nil none).err = some E ∧
      E.Error = (apiClient refuse).name ++ ": do request error: " ++
        (GoError.new "context canceled").Error ∧
      GoError.new "context canceled" ∈ E.chain :=
  ⟨by rfl, by rfl,
    (Do_error_wrapping goStd (apiClient refuse) Heap.empty getItem Any.nil none).2.2.2.1
      itemRequest [] (GoError.new "context canceled") (by rfl) (by rfl)⟩

/-! ### C2: the per-request error handler -/

/-- No operation of the descriptor changes its error handler, and a new
descriptor has none. -/
theorem errorHandler_preserved (std : Std) (h : Heap) (r : Request) :
    (∀ m, (Request.NewRequest m).errorHandler.isNone = true) ∧
    (∀ p a, (r.WithPathf p a).errorHandler = r.errorHandler) ∧
    (∀ p, (r.WithPath p).errorHandler = r.errorHandler) ∧
    (∀ u, (r.WithBase u).errorHandler = r.errorHandler) ∧
    (∀ vs, (r.WithQuery h vs).1.errorHandler = r.errorHandler) ∧
    (∀ vs, (r.WithHeader std h vs).1.errorHandler = r.errorHandler) ∧
    (∀ b enc vs, (r.WithBody std h b enc vs).1.errorHandler = r.errorHandler) ∧
    (∀ b, (r.WithJSONBody std h b).1.errorHandler = r.errorHandler) ∧
    (∀ f, (r.callWithErrorHandler f).1 = r) := by
  refine ⟨fun _ => rfl, fun _ _ => rfl, fun _ => rfl, fun _ => rfl, ?_, fun _ => rfl,
    fun _ _ _ => rfl, fun _ => rfl, fun _ => rfl⟩
  intro vs
  unfold Request.WithQuery
  split <;> rfl

/-- Claim C2 fails on the code: after `r.WithErrorHandler(h)` the caller's
descriptor carries no handler, so on a 404 response `Do` returns the generic
status error, not the handler's result (here: no error), and the handler is
never invoked. -/
theorem WithErrorHandler_not_carried :
    (getItem.callWithErrorHandler lenient).1.errorHandler.isNone = true ∧
    lenient 404 notFoundBody = none ∧
    ((apiClient (respond 404 (Reader.buffer notFoundBody))).Do goStd Heap.empty
      (getItem.callWithErrorHandler lenient).1 (Any.other 0) none).err =
      some (GoError.new "api: http status code: 404") ∧
    ∀ ev ∈ ((apiClient (respond 404 (Reader.buffer notFoundBody))).Do goStd Heap.empty
      (getItem.callWithErrorHandler lenient).1 (Any.other 0) none).trace,
      ev.isErrorHandler = false := by
  decide

/-! ### C3: body resolution -/

/-- Claim C3 as stated fails in one direction of its equivalence: with an encoder
supplied that itself returns `ErrBody`, `Body` on a body of another type fails
with `ErrBody`, although an encoder was supplied. -/
theorem Body_ErrBody_with_encoder :
    needsEncoder (Any.other 0) = true ∧
    (getItem.WithBody goStd Heap.empty (Any.other 0) (some rejecting) []).1.encoder.isSome = true ∧
    (getItem.WithBody goStd Heap.empty (Any.other 0) (some rejecting) []).1.Body =
      ((none, some ErrBody), [Event.encode (Any.other 0)]) := by
  decide

/-- Claim C3, amended: `Body` returns no stream and no error for a nil body; a
stream yielding exactly the original bytes for a string or a byte slice; the
same stream for a reader; for any other body it returns `ErrBody`, invoking
nothing, when no encoder was supplied, and otherwise the result (stream or
error) of invoking the encoder exactly once on the body, so that it fails with
`ErrBody` if and only if no encoder was supplied or the encoder supplied
itself returns `ErrBody`. -/
theorem Body_spec (r : Request) :
    ({ r with body := Any.nil }).Body = ((none, none), []) ∧
    (∀ s, ({ r with body := Any.str s }).Body = ((some (NewBufferString s), none), []) ∧
      (NewBufferString s).contents = some (bytesOf s)) ∧
    (∀ b, ({ r with body := Any.bytes b }).Body = ((some (NewBuffer b), none), []) ∧
      (NewBuffer b).contents = some b) ∧
    (∀ rd, ({ r with body := Any.reader rd }).Body = ((some rd, none), [])) ∧
    (∀ b, needsEncoder b = true →
      ({ r with body := b, encoder := none }).Body = ((none, some ErrBody), []) ∧
      (∀ enc, ({ r with body := b, encoder := some enc }).Body = (enc b, [Event.encode b])) ∧
      (({ r with body := b }).Body.1.2 = some ErrBody ↔
        (r.encoder = none ∨ ∃ enc, r.encoder = some enc ∧ (enc b).2 = some ErrBody))) := by
  refine ⟨rfl, fun _ => ⟨rfl, rfl⟩, fun _ => ⟨rfl, rfl⟩, fun _ => rfl, ?_⟩
  intro b hb
  have hcases : ({ r with body := b, encoder := none }).Body = ((none, some ErrBody), []) ∧
      ∀ enc, ({ r with body := b, encoder := some enc }).Body = (enc b, [Event.encode b]) := by
    cases b <;> first | exact ⟨rfl, fun _ => rfl⟩ | exact absurd hb (by simp [needsEncoder])
  refine ⟨hcases.1, hcases.2, ?_⟩
  cases he : r.encoder with
  | none => simp [hcases.1]
  | some enc =>
    rw [hcases.2 enc]
    simp

/-- The amended claim C3 at the body `42` (an `int`), without and with an
encoder. -/
theorem Body_spec_witness :
    needsEncoder (Any.int 42) = true ∧
    ({ getItem with body := Any.int 42, encoder := none }).Body = ((none, some ErrBody), []) ∧
    ({ getItem with body := Any.int 42, encoder := some fixedEncoder }).Body =
      ((some (Reader.buffer (bytesOf "42")), none), [Event.encode (Any.int 42)]) :=
  ⟨rfl, ((Body_spec getItem).2.2.2.2 (Any.int 42) rfl).1,
    ((Body_spec getItem).2.2.2.2 (Any.int 42) rfl).2.1 fixedEncoder⟩

/-! ### C1: copy semantics -/

/-- Claim C1 fails on the code for `WithQuery` on a descriptor that already
carries query values: with `A := GET("/items/%d", 42).WithQuery(String("a", "1"))`,
the URI of `A` is `/items/42?a=1` before `B := A.WithQuery(String("b", "2"))` is
built and `/items/42?a=1&b=2` after, since `A` and `B` share the map. -/
theorem WithQuery_mutates_original :
    (getItem.WithQuery Heap.empty [String "a" "1"]).1.URI goStd
      (getItem.WithQuery Heap.empty [String "a" "1"]).2 = "/items/42?a=1" ∧
    (getItem.WithQuery Heap.empty [String "a" "1"]).1.URI goStd
      ((getItem.WithQuery Heap.empty [String "a" "1"]).1.WithQuery
        (getItem.WithQuery Heap.empty [String "a" "1"]).2 [String "b" "2"]).2
      = "/items/42?a=1&b=2" := by
  decide

/-! ### The invariants of heap and descriptor -/

theorem Add_ne_nil (m : url.Values) (k x : GoString) : url.Values.Add m k x ≠ [] := by
  cases m with
  | nil => simp [url.Values.Add]
  | cons kv rest =>
    obtain ⟨k2, vs⟩ := kv
    unfold url.Values.Add
    split <;> simp

theorem Add_wf (m : url.Values) (k x : GoString) (hm : ∀ kv ∈ m, kv.2 ≠ []) :
    ∀ kv ∈ url.Values.Add m k x, kv.2 ≠ [] := by
  induction m with
  | nil =>
    intro kv hkv
    simp [url.Values.Add] at hkv
    subst hkv
    simp
  | cons kv0 rest ih =>
    obtain ⟨k2, vs⟩ := kv0
    intro kv hkv
    unfold url.Values.Add at hkv
    split at hkv
    · rcases List.mem_cons.mp hkv with h1 | h1
      · subst h1; simp
      · exact hm kv (List.mem_cons_of_mem _ h1)
    · rcases List.mem_cons.mp hkv with h1 | h1
      · subst h1; exact hm _ (List.mem_cons_self _ _)
      · exact ih (fun kv2 h2 => hm kv2 (List.mem_cons_of_mem _ h2)) kv h1

theorem foldl_Add_wf (adds : List (GoString × GoString)) (m : url.Values)
    (hm : ∀ kv ∈ m, kv.2 ≠ []) :
    ∀ kv ∈ adds.foldl (fun acc kv => url.Values.Add acc kv.1 kv.2) m, kv.2 ≠ [] := by
  induction adds generalizing m with
  | nil => simpa using hm
  | cons a rest ih =>
    simp only [List.foldl_cons]
    exact ih _ (Add_wf m a.1 a.2 hm)

theorem foldl_Add_eq_nil (adds : List (GoString × GoString)) (m : url.Values) :
    adds.foldl (fun acc kv => url.Values.Add acc kv.1 kv.2) m = [] ↔ m = [] ∧ adds = [] := by
  induction adds generalizing m with
  | nil => simp
  | cons a rest ih =>
    simp only [List.foldl_cons, ih]
    constructor
    · rintro ⟨h1, _⟩
      exact absurd h1 (Add_ne_nil m a.1 a.2)
    · rintro ⟨_, h2⟩
      exact absurd h2 (by simp)

theorem applyValues_wf (v : Value) (m : url.Values) (hm : ∀ kv ∈ m, kv.2 ≠ []) :
    ∀ kv ∈ v.applyValues m, kv.2 ≠ [] :=
  foldl_Add_wf v.adds m hm

theorem applyValues_eq_nil (v : Value) (m : url.Values) :
    v.applyValues m = [] ↔ m = [] ∧ v.adds = [] :=
  foldl_Add_eq_nil v.adds m

theorem foldl_applyValues_wf (vs : List Value) (m : url.Values) (hm : ∀ kv ∈ m, kv.2 ≠ []) :
    ∀ kv ∈ vs.foldl (fun acc v => v.applyValues acc) m, kv.2 ≠ [] := by
  induction vs generalizing m with
  | nil => simpa using hm
  | cons a rest ih =>
    simp only [List.foldl_cons]
    exact ih _ (applyValues_wf a m hm)

theorem foldl_applyValues_eq_nil (vs : List Value) (m : url.Values) :
    vs.foldl (fun acc v => v.applyValues acc) m = [] ↔ m = [] ∧ ∀ v ∈ vs, v.adds = [] := by
  induction vs generalizing m with
  | nil => simp
  | cons a rest ih =>
    simp only [List.foldl_cons, ih, applyValues_eq_nil, List.mem_cons, forall_eq_or_imp]
    tauto

/-- The loop of `WithQuery` updates the one map it is given, in place. -/
theorem foldl_applyValue (vs : List Value) (h : Heap) (ref : Nat) (href : ref < h.maps.length) :
    vs.foldl (fun acc v => acc.applyValue ref v) h =
      { h with maps := h.maps.set ref (vs.foldl (fun acc v => v.applyValues acc) (h.map ref)) } := by
  induction vs generalizing h with
  | nil =>
    simp only [List.foldl_nil]
    have : h.maps.set ref (h.map ref) = h.maps := by
      unfold Heap.map
      apply List.ext_getElem?
      intro i
      by_cases hi : ref = i
      · subst hi; simp [List.getElem?_set_self href, List.getElem?_eq_getElem href]
      · simp [List.getElem?_set_ne hi]
    rw [this]
  | cons a rest ih =>
    simp only [List.foldl_cons]
    have hlen : ref < (h.applyValue ref a).maps.length := by
      simp [Heap.applyValue, href]
    rw [ih _ hlen]
    have hmap : (h.applyValue ref a).map ref = a.applyValues (h.map ref) := by
      simp [Heap.applyValue, Heap.map, List.getElem?_set_self href]
    rw [hmap]
    simp [Heap.applyValue, List.set_set]

theorem Heap.map_wf (h : Heap) (hwf : h.WF) (ref : Nat) : ∀ kv ∈ h.map ref, kv.2 ≠ [] := by
  unfold Heap.map
  cases hm : h.maps[ref]? with
  | none => simp
  | some m =>
    simp only [Option.getD_some]
    exact hwf m (List.getElem?_mem hm)

theorem Request.queryMap_wf (h : Heap) (hwf : h.WF) (r : Request) :
    ∀ kv ∈ r.queryMap h, kv.2 ≠ [] := by
  unfold Request.queryMap
  split
  · simp
  · exact Heap.map_wf h hwf _

/-- When every key of a map has a value, the map has a key exactly when it has a
value. -/
theorem flatMap_snd_eq_nil (m : url.Values) (hm : ∀ kv ∈ m, kv.2 ≠ []) :
    m.flatMap Prod.snd = [] ↔ m = [] := by
  cases m with
  | nil => simp
  | cons kv rest =>
    have := hm kv (List.mem_cons_self _ _)
    simp [List.flatMap_cons, this]

/-- The map of the descriptor `WithQuery` returns, in the heap it returns: the
values applied in order to the map the receiver had. -/
theorem WithQuery_queryMap (h : Heap) (r : Request) (vs : List Value) (hr : r.WF h) :
    (r.WithQuery h vs).1.queryMap (r.WithQuery h vs).2 =
      vs.foldl (fun acc v => v.applyValues acc) (r.queryMap h) := by
  unfold Request.WithQuery Request.queryMap
  cases hq : r.query with
  | none =>
    simp only
    rw [foldl_applyValue vs _ h.maps.length (by simp)]
    simp [Heap.map]
  | some ref =>
    simp only [hq]
    have href := hr.1 ref hq
    rw [foldl_applyValue vs h ref href]
    simp [Heap.map, List.getElem?_set_self href]

/-- `WithQuery` keeps the invariants, for the descriptor it returns and for every
other descriptor of the heap, and leaves the backing arrays alone. -/
theorem WithQuery_WF (h : Heap) (r : Request) (vs : List Value) (hwf : h.WF) (hr : r.WF h) :
    (r.WithQuery h vs).2.WF ∧ (r.WithQuery h vs).1.WF (r.WithQuery h vs).2 ∧
    (r.WithQuery h vs).2.arrays = h.arrays ∧
    (r.WithQuery h vs).1.headers = r.headers ∧
    ∀ r2 : Request, r2.WF h → r2.WF (r.WithQuery h vs).2 := by
  unfold Request.WithQuery
  cases hq : r.query with
  | none =>
    simp only
    rw [foldl_applyValue vs _ h.maps.length (by simp)]
    refine ⟨?_, ⟨?_, ?_⟩, by trivial, by trivial, ?_⟩
    · intro m hm
      rcases List.mem_or_eq_of_mem_set hm with h1 | h1
      · rcases List.mem_append.mp h1 with h2 | h2
        · exact hwf m h2
        · simp at h2; subst h2; simp
      · subst h1
        exact foldl_applyValues_wf vs _ (Heap.map_wf _ (by
          intro m2 hm2
          rcases List.mem_append.mp hm2 with h2 | h2
          · exact hwf m2 h2
          · simp at h2; subst h2; simp) _)
    · intro ref href
      simp at href
      subst href
      simp
    · exact hr.2
    · intro r2 hr2
      refine ⟨?_, hr2.2⟩
      intro ref href
      have := hr2.1 ref href
      simp
      omega
  | some ref =>
    simp only
    have href := hr.1 ref hq
    rw [foldl_applyValue vs h ref href]
    refine ⟨?_, ⟨?_, ?_⟩, by trivial, by trivial, ?_⟩
    · intro m hm
      rcases List.mem_or_eq_of_mem_set hm with h1 | h1
      · exact hwf m h1
      · subst h1
        exact foldl_applyValues_wf vs _ (Heap.map_wf h hwf ref)
    · intro ref2 href2
      have := hr.1 ref2 href2
      simpa using this
    · exact hr.2
    · intro r2 hr2
      refine ⟨?_, hr2.2⟩
      intro ref2 href2
      have := hr2.1 ref2 href2
      simpa using this

/-- A descriptor built by `WithQuery` has no query value exactly when the receiver
had none and the values passed add none. -/
theorem WithQuery_queryValues (h : Heap) (r : Request) (vs : List Value)
    (hwf : h.WF) (hr : r.WF h) :
    (r.WithQuery h vs).1.queryValues (r.WithQuery h vs).2 = [] ↔
      r.queryValues h = [] ∧ ∀ v ∈ vs, v.adds = [] := by
  have h1 := WithQuery_WF h r vs hwf hr
  unfold Request.queryValues
  rw [flatMap_snd_eq_nil _ (Request.queryMap_wf _ h1.1 _),
    flatMap_snd_eq_nil _ (Request.queryMap_wf _ hwf _), WithQuery_queryMap h r vs hr,
    foldl_applyValues_eq_nil]

/-- A new descriptor satisfies the invariant in every heap, and the empty heap
satisfies its invariant. -/
theorem NewRequest_WF (h : Heap) (m : GoString) :
    Heap.empty.WF ∧ (Request.NewRequest m).WF h := by
  refine ⟨?_, ?_, ?_⟩
  · intro m hm; simp [Heap.empty] at hm
  · intro ref href; simp [Request.NewRequest] at href
  · simp [Request.NewRequest, Slice.WF, Slice.nil]

/-! ### Slices and `append` -/

/-- `append` does not touch the maps. -/
theorem append_maps (std : Std) (h : Heap) (s : Slice) (vs : List Value) :
    (h.append std s vs).2.maps = h.maps := by
  unfold Heap.append
  split
  · rfl
  · split
    · split <;> rfl
    · rfl

/-- `append(s, vs...)` leaves the elements of `s` itself as they were. -/
theorem append_view_self (std : Std) (h : Heap) (s : Slice) (vs : List Value)
    (hs : Slice.WF h s) :
    (h.append std s vs).2.view s = h.view s := by
  unfold Heap.append
  split
  · rfl
  · cases ha : s.arr with
    | none => simp [Heap.view, ha]
    | some a =>
      unfold Slice.WF at hs
      rw [ha] at hs
      obtain ⟨arr, harr, hlen, hcap⟩ := hs
      have halt : a < h.arrays.length := by
        rcases List.getElem?_eq_some.mp harr with ⟨hlt, _⟩
        exact hlt
      simp only
      split
      · simp only [Heap.view, ha, harr, Option.getD_some, List.getElem?_set_self halt]
        rw [List.append_assoc, List.take_append_of_le_length (by simp; omega)]
        simp
      · simp only [Heap.view, ha]
        rw [List.getElem?_append_left halt]

/-- The slice `append(s, vs...)` returns holds the elements of `s`, then `vs`. -/
theorem append_view_result (std : Std) (h : Heap) (s : Slice) (vs : List Value)
    (hs : Slice.WF h s) :
    (h.append std s vs).2.view (h.append std s vs).1 = h.view s ++ vs := by
  unfold Heap.append
  split
  · rename_i hvs; simp [hvs]
  · cases ha : s.arr with
    | none =>
      unfold Slice.WF at hs
      rw [ha] at hs
      simp [Heap.view, ha]
    | some a =>
      unfold Slice.WF at hs
      rw [ha] at hs
      obtain ⟨arr, harr, hlen, hcap⟩ := hs
      have halt : a < h.arrays.length := by
        rcases List.getElem?_eq_some.mp harr with ⟨hlt, _⟩
        exact hlt
      simp only
      split
      · simp only [Heap.view, ha, harr, Option.getD_some, List.getElem?_set_self halt]
        rw [List.take_append_of_le_length (by simp; omega)]
        rw [List.take_of_length_le (by simp)]
      · simp only [Heap.view, ha, harr, Option.getD_some]
        rw [List.getElem?_concat_length]
        simp only [Option.getD_some]
        rw [List.take_append_of_le_length (by simp; omega)]
        rw [List.take_of_length_le (by simp)]

/-- `append` keeps the invariant of every slice of the heap and establishes it for
the slice it returns. -/
theorem append_WF (std : Std) (h : Heap) (s : Slice) (vs : List Value)
    (hs : Slice.WF h s) :
    Slice.WF (h.append std s vs).2 (h.append std s vs).1 ∧
    ∀ s2 : Slice, Slice.WF h s2 → Slice.WF (h.append std s vs).2 s2 := by
  unfold Heap.append
  split
  · exact ⟨hs, fun _ h2 => h2⟩
  · have hgrow : ∀ (na : List Value) (s2 : Slice), Slice.WF h s2 →
        Slice.WF { h with arrays := h.arrays ++ [na] } s2 := by
      intro na s2 h2
      unfold Slice.WF at h2 ⊢
      cases ha2 : s2.arr with
      | none => rw [ha2] at h2; exact h2
      | some a2 =>
        rw [ha2] at h2
        obtain ⟨arr2, harr2, hl2, hc2⟩ := h2
        have : a2 < h.arrays.length := by
          rcases List.getElem?_eq_some.mp harr2 with ⟨hlt, _⟩
          exact hlt
        exact ⟨arr2, by simp only; rw [List.getElem?_append_left this]; exact harr2, hl2, hc2⟩
    cases ha : s.arr with
    | none =>
      simp only
      refine ⟨?_, hgrow _⟩
      unfold Slice.WF
      simp only
      refine ⟨_, List.getElem?_concat_length _ _, by omega, ?_⟩
      simp
    | some a =>
      have hs0 := hs
      unfold Slice.WF at hs
      rw [ha] at hs
      obtain ⟨arr, harr, hlen, hcap⟩ := hs
      have halt : a < h.arrays.length := by
        rcases List.getElem?_eq_some.mp harr with ⟨hlt, _⟩
        exact hlt
      simp only
      split
      · rename_i hfit
        have hnewlen : (List.take s.len arr ++ vs ++ List.drop (s.len + vs.length) arr).length
            = arr.length := by
          simp; omega
        refine ⟨?_, ?_⟩
        · unfold Slice.WF
          simp only [harr, Option.getD_some]
          exact ⟨_, List.getElem?_set_self halt, hfit, by rw [hnewlen]; exact hcap⟩
        · intro s2 h2
          unfold Slice.WF at h2 ⊢
          cases ha2 : s2.arr with
          | none => rw [ha2] at h2; exact h2
          | some a2 =>
            rw [ha2] at h2
            obtain ⟨arr2, harr2, hl2, hc2⟩ := h2
            simp only [harr, Option.getD_some]
            by_cases heq : a = a2
            · subst heq
              rw [harr] at harr2
              cases harr2
              exact ⟨_, List.getElem?_set_self halt, hl2, by rw [hnewlen]; exact hc2⟩
            · exact ⟨arr2, by rw [List.getElem?_set_ne heq]; exact harr2, hl2, hc2⟩
      · refine ⟨?_, hgrow _⟩
        unfold Slice.WF
        simp only
        refine ⟨_, List.getElem?_concat_length _ _, by omega, ?_⟩
        have hv : (h.view s).length = s.len := by
          simp [Heap.view, ha, harr]; omega
        simp only [List.length_append, List.length_replicate, hv]
        omega

/-! ### C1: what `WithHeader` and `WithQuery` leave unchanged -/

/-- The URI of a descriptor depends on the heap through the maps only. -/
theorem URI_congr (std : Std) (h1 h2 : Heap) (r : Request) (hm : h1.maps = h2.maps) :
    r.URI std h1 = r.URI std h2 := by
  unfold Request.URI Request.queryMap Heap.map
  rw [hm]

/-- The loop of `WithQuery` does not touch the backing arrays. -/
theorem foldl_applyValue_arrays (vs : List Value) (h : Heap) (ref : Nat) :
    (vs.foldl (fun acc v => acc.applyValue ref v) h).arrays = h.arrays := by
  induction vs generalizing h with
  | nil => rfl
  | cons a rest ih => simp only [List.foldl_cons]; rw [ih]; rfl

/-- Building `B := A.WithHeader(vs...)` leaves the URI of `A` and the headers `A`
applies as they were; `B` applies the headers of `A`, then `vs`. -/
theorem WithHeader_preserves_original (std : Std) (h : Heap) (A : Request) (vs : List Value)
    (hA : A.WF h) :
    A.URI std (A.WithHeader std h vs).2 = A.URI std h ∧
    (A.WithHeader std h vs).2.view A.headers = h.view A.headers ∧
    (A.WithHeader std h vs).2.view (A.WithHeader std h vs).1.headers = h.view A.headers ++ vs :=
  ⟨URI_congr std _ _ A (append_maps std h A.headers vs),
   append_view_self std h A.headers vs hA.2,
   append_view_result std h A.headers vs hA.2⟩

/-- Building `B := A.WithQuery(vs...)` leaves the headers `A` applies as they
were, and leaves the URI of `A` as it was when `A` carries no map yet. -/
theorem WithQuery_preserves_original (std : Std) (h : Heap) (A : Request) (vs : List Value) :
    (A.WithQuery h vs).2.view A.headers = h.view A.headers ∧
    (A.query = none → A.URI std (A.WithQuery h vs).2 = A.URI std h) := by
  constructor
  · have : (A.WithQuery h vs).2.arrays = h.arrays := by
      unfold Request.WithQuery
      split <;> simp only [foldl_applyValue_arrays]
    unfold Heap.view
    rw [this]
  · intro hq
    unfold Request.URI Request.queryMap
    simp [hq]

/-- `WithHeader` keeps the invariants, for the descriptor it returns and for every
other descriptor of the heap. -/
theorem WithHeader_WF (std : Std) (h : Heap) (r : Request) (vs : List Value)
    (hwf : h.WF) (hr : r.WF h) :
    (r.WithHeader std h vs).2.WF ∧ (r.WithHeader std h vs).1.WF (r.WithHeader std h vs).2 ∧
    ∀ r2 : Request, r2.WF h → r2.WF (r.WithHeader std h vs).2 := by
  have hm := append_maps std h r.headers vs
  have ha := append_WF std h r.headers vs hr.2
  refine ⟨?_, ⟨?_, ha.1⟩, ?_⟩
  · intro m hmem
    exact hwf m (by simpa [Request.WithHeader, hm] using hmem)
  · intro ref href
    have := hr.1 ref href
    simpa [Request.WithHeader, hm] using this
  · intro r2 hr2
    refine ⟨?_, ha.2 _ hr2.2⟩
    intro ref href
    have := hr2.1 ref href
    simpa [Request.WithHeader, hm] using this

/-! ### C9: URI rendering -/

theorem leChars_total (a b : List Char) : url.leChars a b = true ∨ url.leChars b a = true := by
  induction a generalizing b with
  | nil => left; cases b <;> rfl
  | cons x xs ih =>
    cases b with
    | nil => right; rfl
    | cons y ys =>
      unfold url.leChars
      by_cases h1 : x.toNat < y.toNat
      · left; simp [h1]
      · by_cases h2 : y.toNat < x.toNat
        · right; simp [h2]
        · simp only [h1, h2, if_false]
          exact ih ys

theorem leChars_trans (a b c : List Char) (hab : url.leChars a b = true)
    (hbc : url.leChars b c = true) : url.leChars a c = true := by
  induction a generalizing b c with
  | nil => cases c <;> rfl
  | cons x xs ih =>
    cases b with
    | nil => simp [url.leChars] at hab
    | cons y ys =>
      cases c with
      | nil => simp [url.leChars] at hbc
      | cons z zs =>
        unfold url.leChars at hab hbc ⊢
        by_cases h1 : x.toNat < y.toNat
        · by_cases h2 : y.toNat < z.toNat
          · have : x.toNat < z.toNat := by omega
            simp [this]
          · by_cases h3 : z.toNat < y.toNat
            · simp [h2, h3] at hbc
            · have : x.toNat < z.toNat := by omega
              simp [this]
        · by_cases h1b : y.toNat < x.toNat
          · simp [h1, h1b] at hab
          · simp only [h1, h1b, if_false] at hab
            by_cases h2 : y.toNat < z.toNat
            · have : x.toNat < z.toNat := by omega
              simp [this]
            · by_cases h3 : z.toNat < y.toNat
              · simp [h2, h3] at hbc
              · simp only [h2, h3, if_false] at hbc
                have e1 : ¬ x.toNat < z.toNat := by omega
                have e2 : ¬ z.toNat < x.toNat := by omega
                simp only [e1, e2, if_false]
                exact ih ys zs hab hbc

/-- The keys `Encode` walks are the keys of the map, in sorted order. -/
theorem sortedKeys_sorted (v : url.Values) :
    (url.Values.sortedKeys v).Sorted url.keyLe ∧
    (url.Values.sortedKeys v).Perm (v.map Prod.fst) := by
  haveI : IsTotal GoString url.keyLe := ⟨fun a b => leChars_total a.data b.data⟩
  haveI : IsTrans GoString url.keyLe := ⟨fun a b c => leChars_trans a.data b.data c.data⟩
  exact ⟨List.sorted_insertionSort url.keyLe _, List.perm_insertionSort url.keyLe _⟩

/-- The builder loop of `Encode` joins the pieces as `strings.Join(_, "&")` does. -/
theorem intercalate_go_amp (acc : GoString) (a : GoString) (l : List GoString) :
    String.intercalate.go acc "&" (a :: l) = acc ++ "&" ++ url.joinAmp (a :: l) := by
  induction l generalizing acc a with
  | nil => simp [String.intercalate.go, url.joinAmp]
  | cons b rest ih =>
    rw [String.intercalate.go, ih]
    simp [url.joinAmp, String.append_assoc]

theorem joinAmp_eq_intercalate (l : List GoString) : url.joinAmp l = "&".intercalate l := by
  cases l with
  | nil => rfl
  | cons a rest =>
    cases rest with
    | nil => simp [String.intercalate, String.intercalate.go, url.joinAmp]
    | cons b rest2 =>
      rw [String.intercalate, intercalate_go_amp]
      simp [url.joinAmp]

/-- The lookup `v[k]`, in terms of the list of entries. -/
theorem Get_eq_lookup (m : url.Values) (k : GoString) :
    url.Values.Get m k = (m.lookup k).getD [] := by
  induction m with
  | nil => rfl
  | cons kv rest ih =>
    obtain ⟨k2, vs⟩ := kv
    unfold url.Values.Get
    by_cases hk : k2 = k
    · subst hk; simp [List.lookup]
    · have hk2 : (k == k2) = false := by
        simpa using fun hc => hk hc.symm
      simp [List.lookup, hk, hk2, ih]

/-- What `Encode` returns is the key-sorted encoding of the map. -/
theorem Encode_keySorted (escape : GoString → GoString) (m : url.Values) :
    keySortedEncoding escape m (url.Values.Encode escape m) := by
  refine ⟨url.Values.sortedKeys m, (sortedKeys_sorted m).1, (sortedKeys_sorted m).2, ?_⟩
  unfold url.Values.Encode
  rw [joinAmp_eq_intercalate]
  simp only [Get_eq_lookup]

/-- Claim C9: `URI()` is the path template rendered with its bound arguments (the
path verbatim when none is bound), followed by `?` and the key-sorted encoding
of the query values if and only if at least one query value was set;
`ParseURL()` is the resolution of that URI against the base (a failure being
wrapped as `<cause>: invalid url`); `GET("/items/%d", 42)` against
`https://api.example.com` gives `https://api.example.com/items/42`, and
`https://api.example.com/items/42?limit=10` after `WithQuery(Int("limit", 10))`;
values set under the keys `b`, `a`, `b` are rendered as `a=..&b=..&b=..`. -/
theorem URI_spec (std : Std) (h : Heap) (r : Request) (hwf : h.WF) :
    (∃ enc : GoString, keySortedEncoding std.QueryEscape (r.queryMap h) enc ∧
      r.URI std h =
        r.rendered std ++ (if r.queryValues h = [] then "" else "?" ++ enc)) ∧
    (∀ u, std.Parse r.base (r.URI std h) = Except.ok u → r.ParseURL std h = Except.ok u) ∧
    (∀ e, std.Parse r.base (r.URI std h) = Except.error e →
      r.ParseURL std h = Except.error (Errorf_w "" e ": invalid url")) ∧
    (getItem.WithBase apiBase).ParseURL goStd Heap.empty =
      Except.ok ⟨"https", "api.example.com", "/items/42", ""⟩ ∧
    goStd.URLString ⟨"https", "api.example.com", "/items/42", ""⟩ =
      "https://api.example.com/items/42" ∧
    (getItemLimit.1.WithBase apiBase).ParseURL goStd getItemLimit.2 =
      Except.ok ⟨"https", "api.example.com", "/items/42", "limit=10"⟩ ∧
    goStd.URLString ⟨"https", "api.example.com", "/items/42", "limit=10"⟩ =
      "https://api.example.com/items/42?limit=10" ∧
    getSorted.1.URI goStd getSorted.2 = "/s?a=1+x&b=2&b=3" ∧
    (getSorted.1.WithBase apiBase).ParseURL goStd getSorted.2 =
      Except.ok ⟨"https", "api.example.com", "/s", "a=1+x&b=2&b=3"⟩ := by
  refine ⟨⟨url.Values.Encode std.QueryEscape (r.queryMap h), Encode_keySorted _ _, ?_⟩,
    ?_, ?_, by rfl, by decide, by rfl, by decide, by decide, by rfl⟩
  · have hq : r.queryValues h = [] ↔ r.queryMap h = [] :=
      flatMap_snd_eq_nil _ (Request.queryMap_wf h hwf r)
    have hargs : (r.args.length > 0) ↔ ¬ r.args = [] := by
      cases r.args <;> simp
    unfold Request.URI Request.rendered
    by_cases hm : r.queryMap h = []
    · have hl : ¬ (r.queryMap h).length > 0 := by simp [hm]
      rw [if_neg hl, if_pos (hq.2 hm), String.append_empty]
      by_cases ha : r.args = []
      · rw [if_neg (fun hc => (hargs.1 hc) ha), if_pos ha]
      · rw [if_pos (hargs.2 ha), if_neg ha]
    · have hl : (r.queryMap h).length > 0 := List.length_pos.mpr hm
      rw [if_pos hl, if_neg (fun hc => hm (hq.1 hc))]
      by_cases ha : r.args = []
      · rw [if_neg (fun hc => (hargs.1 hc) ha), if_pos ha, String.append_assoc]
      · rw [if_pos (hargs.2 ha), if_neg ha, String.append_assoc]
  · intro u hu
    simp only [Request.ParseURL, hu]
  · intro e he
    simp only [Request.ParseURL, he]

/-- Claim C9 at `GET("/s").WithQuery(String("b", "2"), String("a", "1 x"),
String("b", "3"))`: the heap satisfies the invariant, the URI is the path
followed by `?` and a key-sorted encoding of the map, and that URI is
`/s?a=1+x&b=2&b=3`, the keys `a` and `b` in sorted order. -/
theorem URI_spec_witness :
    getSorted.2.WF ∧
    (∃ enc : GoString, keySortedEncoding goStd.QueryEscape (getSorted.1.queryMap getSorted.2) enc ∧
      getSorted.1.URI goStd getSorted.2 =
        getSorted.1.rendered goStd ++
          (if getSorted.1.queryValues getSorted.2 = [] then "" else "?" ++ enc)) ∧
    getSorted.1.queryMap getSorted.2 = [("b", ["2", "3"]), ("a", ["1 x"])] ∧
    getSorted.1.URI goStd getSorted.2 = "/s?a=1+x&b=2&b=3" :=
  ⟨(WithQuery_WF Heap.empty (GET "/s" []) _ (NewRequest_WF Heap.empty "").1
      (NewRequest_WF Heap.empty "GET").2).1,
   (URI_spec goStd getSorted.2 getSorted.1
      (WithQuery_WF Heap.empty (GET "/s" []) _ (NewRequest_WF Heap.empty "").1
        (NewRequest_WF Heap.empty "GET").2).1).1,
   by decide, by decide⟩

end httpc
